import Mathlib

/-!
Verification of the storage core of the smec entity-storage engine.

The definitions below are a shallow embedding of the Rust sources:

* `src/genarena/mod.rs` — the generational slot allocator `GenArena<T>`;
* `src/genarena/iter.rs` — its full-scan iterator;
* `src/entity_list.rs` — the `EntityList` collection;
* `src/iter.rs` — the query iteration engine;
* `src/serde.rs` — (de)serialization of an `EntityList`;
* `src/macro_define.rs` — the accessor glue generated by `define_entity!`,
  instantiated at a representative schema with one property and three
  component types (the schema used by the repository tests).

Machine integers (`usize`, `u64`) are modelled as `Nat`: no arithmetic in the
modelled code can overflow 64 bits on the inputs any run can construct, and
the sources perform no wrapping arithmetic on them.  A Rust function that can
panic (slice indexing out of bounds, an explicit `panic!`/`unreachable!`, or
the arithmetic underflow in `internal_reserve_exact`) is modelled as
returning `Option`, with `none` for the panic.
-/

namespace Smec

/-- Handle into a `GenArena`: `Index { index: usize, generation: u64 }`
(`src/genarena/mod.rs`). -/
structure Index where
  index : Nat
  generation : Nat
deriving DecidableEq, Repr

/-- `Entry<T>`: a slot of the arena, either `Free { next_generation, next_free }`
or `Occupied { generation, value }` (`src/genarena/mod.rs`). -/
inductive Entry (T : Type) where
  | free (next_generation : Nat) (next_free : Option Nat)
  | occupied (generation : Nat) (value : T)
deriving DecidableEq, Repr

namespace Entry

/-- `Entry::map` (`src/genarena/mod.rs`). -/
def map (f : T → U) : Entry T → Entry U
  | .free ng nf => .free ng nf
  | .occupied g v => .occupied g (f v)

end Entry

/-- `GenArena<T>`: `entries`, the free-list head `next_free`, and `length`,
the number of `Occupied` entries (`src/genarena/mod.rs`). -/
structure GenArena (T : Type) where
  entries : List (Entry T)
  next_free : Option Nat
  length : Nat
deriving DecidableEq, Repr

namespace GenArena

/-- `internal_reserve_exact`: materializes `added` new `Free` entries chained
into the free list, returning the new head.  The Rust loop runs
`for i in 0..(added_capacity-1)`; with `added_capacity = 0` the subtraction
`added_capacity - 1` underflows (`usize`), which panics in a debug build and
makes the loop attempt `usize::MAX` pushes in a release build, so the call
never returns normally: modelled as `none`. -/
def internalReserveExact (a : GenArena T) (added : Nat) : Option (GenArena T × Nat) :=
  if added = 0 then none
  else
    let start := a.entries.length
    some ({ entries := a.entries
              ++ ((List.range (added - 1)).map (fun i => Entry.free 0 (some (start + i + 1)))
              ++ [Entry.free 0 a.next_free]),
            next_free := some start,
            length := a.length },
          start)

/-- `reserve_exact` (`src/genarena/mod.rs`). -/
def reserveExact (a : GenArena T) (added : Nat) : Option (GenArena T) :=
  (a.internalReserveExact added).map Prod.fst

/-- `with_capacity`: empty arena, then `reserve_exact(capacity)` when
`capacity > 0`.  The fallback arm of the match is unreachable because
`internalReserveExact` only fails on `added = 0`. -/
def withCapacity (capacity : Nat) : GenArena T :=
  let arena : GenArena T := { entries := [], next_free := none, length := 0 }
  if capacity > 0 then
    match arena.internalReserveExact capacity with
    | some (a, _) => a
    | none => arena
  else arena

/-- `DEFAULT_ARENA_CAPACITY` (`src/genarena/mod.rs`). -/
def defaultArenaCapacity : Nat := 32

/-- `GenArena::new()` = `with_capacity(DEFAULT_ARENA_CAPACITY)`. -/
def new : GenArena T := withCapacity defaultArenaCapacity

/-- `from_raw` (`src/genarena/mod.rs`): reassembles an arena from its parts;
the `debug_assert!` on `length` is compiled out in release builds and is not
modelled. -/
def fromRaw (entries : List (Entry T)) (length : Nat) (next_free : Option Nat) :
    GenArena T :=
  { entries := entries, next_free := next_free, length := length }

/-- `force_insert_at`: occupy the `Free` slot at `index` with the generation
it stored.  Panics (`none`) when the index is out of bounds (Rust slice
indexing) or the slot is already `Occupied` (explicit `panic!`). -/
def forceInsertAt (a : GenArena T) (index : Nat) (value : T) :
    Option (GenArena T × Index) :=
  match a.entries[index]? with
  | some (Entry.free ng nf) =>
      some ({ entries := a.entries.set index (Entry.occupied ng value),
              next_free := nf,
              length := a.length + 1 },
            ⟨index, ng⟩)
  | some (Entry.occupied _ _) => none
  | none => none

/-- `push`: pop the free-list head, or grow by
`max(entries.len(), MIN_RESERVE)` first (`MIN_RESERVE = 8`). -/
def push (a : GenArena T) (value : T) : Option (GenArena T × Index) :=
  match a.next_free with
  | some nf => a.forceInsertAt nf value
  | none =>
      match a.internalReserveExact (max a.entries.length 8) with
      | some (a1, nf) => a1.forceInsertAt nf value
      | none => none

/-- `remove`: generation-checked removal.  Returns `none` (the Rust `None`,
not a panic — `remove` cannot panic) for an out-of-bounds index, a `Free`
slot, or a generation mismatch; on success, the slot becomes
`Free { next_generation: generation + 1, next_free: old head }` and the head
points at it. -/
def remove (a : GenArena T) (index : Index) : Option (T × GenArena T) :=
  match a.entries[index.index]? with
  | some (Entry.occupied g v) =>
      if g = index.generation then
        some (v, { entries := a.entries.set index.index
                      (Entry.free (g + 1) a.next_free),
                   next_free := some index.index,
                   length := a.length - 1 })
      else none
  | _ => none

/-- The entry `clear` rewrites a slot to, with the free-list link it receives
(`src/genarena/mod.rs::clear`): a `Free` slot keeps its stored generation, an
`Occupied` slot's generation is bumped by 1. -/
def clearedEntry (e : Entry T) (link : Option Nat) : Entry T :=
  match e with
  | .free ng _ => .free ng link
  | .occupied g _ => .free (g + 1) link

/-- `clear`: every slot becomes `Free`, relinked in index order (the last
slot links to `None`), `length` is reset to 0 and `next_free` to `Some(0)`
— unconditionally, even when `entries` is empty. -/
def clear (a : GenArena T) : GenArena T :=
  { entries := a.entries.mapIdx (fun i e =>
      clearedEntry e (if i + 1 = a.entries.length then none else some (i + 1))),
    next_free := some 0,
    length := 0 }

/-- `get`: generation-checked lookup. -/
def get (a : GenArena T) (index : Index) : Option T :=
  match a.entries[index.index]? with
  | some (Entry.occupied g v) =>
      if g = index.generation then some v else none
  | _ => none

/-- `get_raw`: generation-unchecked lookup by bare index, returning the value
and its generation. -/
def getRaw (a : GenArena T) (index : Nat) : Option (T × Nat) :=
  match a.entries[index]? with
  | some (Entry.occupied g v) => some (v, g)
  | _ => none

/-- `contains` (`src/genarena/mod.rs`). -/
def contains (a : GenArena T) (index : Index) : Bool :=
  (a.get index).isSome

/-- `capacity` (`src/genarena/mod.rs`): `entries.len()`. -/
def capacity (a : GenArena T) : Nat := a.entries.length

/-- The full-scan iterator `Iter` (`src/genarena/iter.rs`) drained into a
list: indices in increasing order, `Free` entries skipped, each `Occupied`
entry yielded as `(Index::new(i, generation), value)`. -/
def iterList (a : GenArena T) : List (Index × T) :=
  a.entries.enum.filterMap (fun p =>
    match p.2 with
    | Entry.occupied g v => some (⟨p.1, g⟩, v)
    | Entry.free _ _ => none)

end GenArena

/-- One mutating arena operation, for quantifying over call sequences. -/
inductive AOp (T : Type) where
  | push (value : T)
  | remove (index : Index)
  | clear
  | reserveExact (added : Nat)

/-- Apply one arena operation; `none` when the operation panics.
`remove` on a stale handle is a silent no-op in the source, never a panic. -/
def applyAOp (a : GenArena T) : AOp T → Option (GenArena T)
  | .push v => (a.push v).map Prod.fst
  | .remove idx =>
      match a.remove idx with
      | some (_, a1) => some a1
      | none => some a
  | .clear => some a.clear
  | .reserveExact n => a.reserveExact n

/-- Run a sequence of arena operations, aborting at the first panic. -/
def runA : List (AOp T) → GenArena T → Option (GenArena T)
  | [], a => some a
  | op :: ops, a =>
      match applyAOp a op with
      | some a1 => runA ops a1
      | none => none

end Smec

namespace Smec

namespace GenArena

/-- Characterization of a successful `remove`: the slot held `occupied` with
the handle's generation, and the resulting arena is as written in the source. -/
theorem remove_eq_some {a a1 : GenArena T} {h : Index} {v : T}
    (hrem : a.remove h = some (v, a1)) :
    a.entries[h.index]? = some (Entry.occupied h.generation v) ∧
    a1 = { entries := a.entries.set h.index
              (Entry.free (h.generation + 1) a.next_free),
           next_free := some h.index,
           length := a.length - 1 } := by
  unfold remove at hrem
  split at hrem
  next g w heq =>
    split at hrem
    next hg =>
      subst hg
      simp only [Option.some.injEq, Prod.mk.injEq] at hrem
      obtain ⟨hv, ha⟩ := hrem
      subst hv
      exact ⟨heq, ha.symm⟩
    next hg => exact absurd hrem (by simp)
  next => exact absurd hrem (by simp)

end GenArena

/-- C7: if `remove(h)` succeeds, the next `push(v)` reuses `h`'s index with
generation `h.generation + 1` (strictly greater than `h`'s), and `get` on the
new handle returns the pushed value. -/
theorem genarena_allocator_reuse (a a1 : GenArena Nat) (h : Index) (v w : Nat)
    (hrem : a.remove h = some (v, a1)) :
    (a1.push w).map (fun p => (p.2, p.1.get p.2)) =
      some (⟨h.index, h.generation + 1⟩, some w) := by
  obtain ⟨hx, ha1⟩ := GenArena.remove_eq_some hrem
  have hlt : h.index < a.entries.length := (List.getElem?_eq_some.mp hx).1
  subst ha1
  simp only [GenArena.push, GenArena.forceInsertAt, List.getElem?_set, if_pos rfl,
    hlt, if_pos rfl, GenArena.get, Option.map_some']
  simp [List.getElem?_set, hlt]

end Smec

namespace Smec

/-- `true` on `Free` entries. -/
def isFreeEntry : Entry T → Bool
  | .free _ _ => true
  | .occupied _ _ => false

/-- Follow the free-list chain from `head` for at most `fuel` steps,
collecting the visited indices; `none` when the chain leaves the bounds of
`entries`, passes through an `Occupied` entry, or fails to reach `None`
within `fuel` steps (a cycle, given enough fuel). -/
def freeChainList (a : GenArena T) : Nat → Option Nat → Option (List Nat)
  | _, none => some []
  | 0, some _ => none
  | fuel + 1, some i =>
      match a.entries[i]? with
      | some (.free _ nxt) => (freeChainList a fuel nxt).map (i :: ·)
      | _ => none

/-- Decidable statement of the Slot Allocator invariant claimed by the spec:
`length` counts the `Occupied` entries, and the free-list chain followed from
`next_free` stays in bounds, terminates at `None` without cycles, and visits
exactly the `Free` entries. -/
def allocatorStateOk (a : GenArena T) : Bool :=
  match freeChainList a a.entries.length a.next_free with
  | none => false
  | some l =>
      (a.length == a.entries.countP (fun e => ! isFreeEntry e)) &&
      decide l.Nodup &&
      (List.range a.entries.length).all (fun i =>
        (match a.entries[i]? with
         | some e => isFreeEntry e
         | none => false) == l.contains i)

/-- C6: the claimed allocator invariant fails on the code.  A fresh arena
satisfies it, but `clear()` on a zero-capacity arena unconditionally sets
`next_free = Some(0)` while `entries` is empty, so the free-list head is out
of bounds — and the next `push` panics on `entries[0]`. -/
theorem genarena_clear_empty_free_list_out_of_bounds :
    allocatorStateOk (GenArena.new : GenArena Nat) = true
  ∧ ((GenArena.withCapacity 0 : GenArena Nat)).clear.next_free = some 0
  ∧ ((GenArena.withCapacity 0 : GenArena Nat)).clear.entries = []
  ∧ allocatorStateOk ((GenArena.withCapacity 0 : GenArena Nat).clear) = false
  ∧ ((GenArena.withCapacity 0 : GenArena Nat)).clear.push 7 = none :=
  ⟨by decide, rfl, rfl, by decide, rfl⟩

/-- C10 counterexample: `reserve_exact(0)` does not return normally (the
internal loop bound `added_capacity - 1` underflows), so `reserve_exact` is
not total. -/
theorem genarena_reserve_exact_zero_panics :
    (GenArena.withCapacity 0 : GenArena Nat).reserveExact 0 = none := rfl

/-- C10 amended: for `added_capacity ≥ 1`, `reserve_exact` returns without
panicking; afterwards the capacity has grown by exactly `added_capacity`,
`length` and the pre-existing entries are untouched, and the new entries are
all `Free`, chained one to the next with the last linking to the previous
free-list head, which now points at the first new entry. -/
theorem genarena_reserve_exact_grows (a : GenArena Nat) (n i : Nat) (hn : 1 ≤ n) :
    ((a.reserveExact n).map GenArena.capacity = some (a.capacity + n))
  ∧ ((a.reserveExact n).map GenArena.next_free = some (some a.entries.length))
  ∧ ((a.reserveExact n).map GenArena.length = some a.length)
  ∧ (i < a.entries.length →
       (a.reserveExact n).map (fun a2 => a2.entries[i]?) = some (a.entries[i]?))
  ∧ (i < n →
       (a.reserveExact n).map (fun a2 => a2.entries[a.entries.length + i]?) =
         some (some (Entry.free 0
           (if i + 1 = n then a.next_free else some (a.entries.length + i + 1))))) := by
  have hne : ¬ n = 0 := by omega
  refine ⟨?_, ?_, ?_, ?_, ?_⟩
  · simp only [GenArena.reserveExact, GenArena.internalReserveExact, if_neg hne,
      Option.map_some', GenArena.capacity]
    simp
    omega
  · simp [GenArena.reserveExact, GenArena.internalReserveExact, if_neg hne]
  · simp [GenArena.reserveExact, GenArena.internalReserveExact, if_neg hne]
  · intro hi
    simp only [GenArena.reserveExact, GenArena.internalReserveExact, if_neg hne,
      Option.map_some', Option.some.injEq]
    rw [List.getElem?_append, if_pos hi]
  · intro hi
    simp only [GenArena.reserveExact, GenArena.internalReserveExact, if_neg hne,
      Option.map_some', Option.some.injEq]
    rw [List.getElem?_append, if_neg (by omega)]
    have hsub : a.entries.length + i - a.entries.length = i := by omega
    rw [hsub, List.getElem?_append]
    by_cases hlast : i + 1 = n
    · rw [if_neg (by simp; omega)]
      have hi2 : i - (List.map
          (fun j => Entry.free (T := Nat) 0 (some (a.entries.length + j + 1)))
          (List.range (n - 1))).length = 0 := by simp; omega
      rw [hi2, if_pos hlast]
      rfl
    · rw [if_pos (by simp; omega), if_neg hlast]
      rw [List.getElem?_map]
      rw [List.getElem?_range (by omega : i < n - 1)]
      rfl

/-- Witness for `genarena_reserve_exact_grows` at a concrete arena and size. -/
theorem genarena_reserve_exact_grows_witness :
    1 ≤ 2
  ∧ ((((GenArena.withCapacity 3 : GenArena Nat)).reserveExact 2).map GenArena.capacity =
        some ((GenArena.withCapacity 3 : GenArena Nat).capacity + 2))
  ∧ ((((GenArena.withCapacity 3 : GenArena Nat)).reserveExact 2).map GenArena.next_free =
        some (some (GenArena.withCapacity 3 : GenArena Nat).entries.length))
  ∧ ((((GenArena.withCapacity 3 : GenArena Nat)).reserveExact 2).map GenArena.length =
        some (GenArena.withCapacity 3 : GenArena Nat).length)
  ∧ (0 < (GenArena.withCapacity 3 : GenArena Nat).entries.length →
       (((GenArena.withCapacity 3 : GenArena Nat)).reserveExact 2).map
           (fun a2 => a2.entries[0]?) =
         some ((GenArena.withCapacity 3 : GenArena Nat).entries[0]?))
  ∧ (0 < 2 →
       (((GenArena.withCapacity 3 : GenArena Nat)).reserveExact 2).map
           (fun a2 => a2.entries[(GenArena.withCapacity 3 : GenArena Nat).entries.length + 0]?) =
         some (some (Entry.free 0
           (if 0 + 1 = 2 then (GenArena.withCapacity 3 : GenArena Nat).next_free
            else some ((GenArena.withCapacity 3 : GenArena Nat).entries.length + 0 + 1))))) :=
  ⟨by decide, genarena_reserve_exact_grows (GenArena.withCapacity 3) 2 0 (by decide)⟩

end Smec

namespace Smec

/-- The generation "floor" of a slot: the generation an `Occupied` slot
carries, or the generation a `Free` slot will assign on reuse.  Every
operation of the allocator leaves it non-decreasing, slot by slot. -/
def slotFloor : Entry T → Nat
  | .free ng _ => ng
  | .occupied g _ => g

/-- Slot-wise monotonicity relation between two arena states: every slot of
`a` still exists in `b` and its generation floor has not decreased. -/
def FloorMono (a b : GenArena T) : Prop :=
  ∀ (i : Nat) (ea : Entry T), a.entries[i]? = some ea →
    ∃ eb, b.entries[i]? = some eb ∧ slotFloor ea ≤ slotFloor eb

theorem floorMono_refl (a : GenArena T) : FloorMono a a := by
  unfold FloorMono
  exact fun _ ea h => ⟨ea, h, le_refl _⟩

theorem floorMono_trans {a b c : GenArena T}
    (hab : FloorMono a b) (hbc : FloorMono b c) : FloorMono a c := by
  unfold FloorMono at *
  intro i ea ha
  obtain ⟨eb, hb, h1⟩ := hab i ea ha
  obtain ⟨ec, hc, h2⟩ := hbc i eb hb
  exact ⟨ec, hc, le_trans h1 h2⟩

theorem floorMono_append (a : GenArena T) (l : List (Entry T)) (nf : Option Nat)
    (len : Nat) :
    FloorMono a { entries := a.entries ++ l, next_free := nf, length := len } := by
  unfold FloorMono
  intro i ea ha
  have hi : i < a.entries.length := (List.getElem?_eq_some.mp ha).1
  refine ⟨ea, ?_, le_refl _⟩
  simpa [List.getElem?_append, hi] using ha

theorem floorMono_internalReserveExact {a b : GenArena T} {n start : Nat}
    (h : a.internalReserveExact n = some (b, start)) : FloorMono a b := by
  unfold GenArena.internalReserveExact at h
  split at h
  · exact absurd h (by simp)
  · simp only [Option.some.injEq, Prod.mk.injEq] at h
    rw [← h.1]
    exact floorMono_append a _ _ _

theorem floorMono_forceInsertAt {a b : GenArena T} {idx : Nat} {v : T} {h : Index}
    (hf : a.forceInsertAt idx v = some (b, h)) : FloorMono a b := by
  unfold GenArena.forceInsertAt at hf
  split at hf
  next ng nf heq =>
    simp only [Option.some.injEq, Prod.mk.injEq] at hf
    rw [← hf.1]
    unfold FloorMono
    intro i ea ha
    by_cases hi : i = idx
    · subst hi
      obtain rfl : ea = Entry.free ng nf := by injection ha.symm.trans heq
      have hlt : i < a.entries.length := (List.getElem?_eq_some.mp ha).1
      exact ⟨Entry.occupied ng v, by simp [List.getElem?_set, hlt], le_refl _⟩
    · refine ⟨ea, ?_, le_refl _⟩
      rw [List.getElem?_set, if_neg (fun hh => hi hh.symm)]
      exact ha
  next => exact absurd hf (by simp)
  next => exact absurd hf (by simp)

theorem floorMono_push {a b : GenArena T} {v : T} {h : Index}
    (hp : a.push v = some (b, h)) : FloorMono a b := by
  unfold GenArena.push at hp
  split at hp
  · exact floorMono_forceInsertAt hp
  · split at hp
    next a1 nf hres =>
      exact floorMono_trans (floorMono_internalReserveExact hres)
        (floorMono_forceInsertAt hp)
    next => exact absurd hp (by simp)

theorem floorMono_remove {a : GenArena T} {h : Index} {v : T} {b : GenArena T}
    (hr : a.remove h = some (v, b)) : FloorMono a b := by
  obtain ⟨hx, hb⟩ := GenArena.remove_eq_some hr
  subst hb
  unfold FloorMono
  intro i ea ha
  by_cases hi : i = h.index
  · subst hi
    obtain rfl : ea = Entry.occupied h.generation v := by injection ha.symm.trans hx
    have hlt : h.index < a.entries.length := (List.getElem?_eq_some.mp ha).1
    exact ⟨Entry.free (h.generation + 1) a.next_free,
      by simp [List.getElem?_set, hlt], by simp [slotFloor]⟩
  · refine ⟨ea, ?_, le_refl _⟩
    rw [List.getElem?_set, if_neg (fun hh => hi hh.symm)]
    exact ha

theorem slotFloor_clearedEntry (e : Entry T) (link : Option Nat) :
    slotFloor e ≤ slotFloor (GenArena.clearedEntry e link) := by
  cases e <;> simp [GenArena.clearedEntry, slotFloor]

theorem floorMono_clear (a : GenArena T) : FloorMono a a.clear := by
  unfold FloorMono
  intro i ea ha
  refine ⟨GenArena.clearedEntry ea
    (if i + 1 = a.entries.length then none else some (i + 1)), ?_, ?_⟩
  · simp [GenArena.clear, List.getElem?_mapIdx, ha]
  · exact slotFloor_clearedEntry _ _

theorem floorMono_applyAOp {a b : GenArena T} {op : AOp T}
    (h : applyAOp a op = some b) : FloorMono a b := by
  cases op with
  | push v =>
      simp only [applyAOp, Option.map_eq_some'] at h
      obtain ⟨⟨a1, idx⟩, hp, hb⟩ := h
      rw [← hb]
      exact floorMono_push hp
  | remove idx =>
      simp only [applyAOp] at h
      split at h
      next v a1 hr =>
        obtain rfl : a1 = b := by injection h
        exact floorMono_remove hr
      next =>
        obtain rfl : a = b := by injection h
        exact floorMono_refl a
  | clear =>
      obtain rfl : a.clear = b := by injection h
      exact floorMono_clear a
  | reserveExact n =>
      simp only [applyAOp, GenArena.reserveExact, Option.map_eq_some'] at h
      obtain ⟨⟨a1, start⟩, hres, hb⟩ := h
      rw [← hb]
      exact floorMono_internalReserveExact hres

theorem floorMono_runA {ops : List (AOp T)} {a b : GenArena T}
    (h : runA ops a = some b) : FloorMono a b := by
  induction ops generalizing a with
  | nil =>
      obtain rfl : a = b := by injection h
      exact floorMono_refl a
  | cons op ops ih =>
      simp only [runA] at h
      split at h
      next a1 hop => exact floorMono_trans (floorMono_applyAOp hop) (ih h)
      next => exact absurd h (by simp)

theorem get_eq_some_iff {a : GenArena T} {h : Index} {v : T} :
    a.get h = some v ↔ a.entries[h.index]? = some (Entry.occupied h.generation v) := by
  unfold GenArena.get
  constructor
  · intro hg
    split at hg
    next g w heq =>
      split at hg
      next hgen =>
        obtain rfl : w = v := by injection hg
        rw [heq, hgen]
      next => exact absurd hg (by simp)
    next => exact absurd hg (by simp)
  · intro hx
    rw [hx]
    simp

theorem get_none_of_floor_gt {a : GenArena T} {h : Index}
    (hf : ∀ e, a.entries[h.index]? = some e → h.generation < slotFloor e) :
    a.get h = none := by
  unfold GenArena.get
  split
  next g w heq =>
    have := hf _ heq
    simp only [slotFloor] at this
    rw [if_neg (by omega)]
  next => rfl

end Smec

namespace Smec

/-- C3: for any (panic-free) sequence of `push`/`remove`/`clear` operations
from a fresh arena: two simultaneously valid handles with the same index are
the same handle; once `remove(h)` has succeeded, `get(h)` returns `None`
after every later sequence of operations; and the same holds for every
handle valid at the moment of a `clear`. -/
theorem genarena_handle_churn_safety
    (ops tail tl : List (AOp Nat)) (s s1 s2 s3 : GenArena Nat)
    (h1 h2 h3 h4 : Index) (v : Nat)
    (hrun : runA ops (GenArena.new : GenArena Nat) = some s) :
    ((s.get h2).isSome → (s.get h3).isSome → h2.index = h3.index → h2 = h3)
  ∧ (s.remove h1 = some (v, s1) → runA tail s1 = some s2 → s2.get h1 = none)
  ∧ ((s.get h4).isSome → runA tl s.clear = some s3 → s3.get h4 = none) := by
  refine ⟨?_, ?_, ?_⟩
  · intro hg2 hg3 hidx
    obtain ⟨v2, hv2⟩ := Option.isSome_iff_exists.mp hg2
    obtain ⟨v3, hv3⟩ := Option.isSome_iff_exists.mp hg3
    rw [get_eq_some_iff] at hv2 hv3
    rw [hidx] at hv2
    have h5 : Entry.occupied h2.generation v2 = Entry.occupied h3.generation v3 := by
      injection hv2.symm.trans hv3
    have hgen : h2.generation = h3.generation := (Entry.occupied.inj h5).1
    cases h2; cases h3
    simp_all
  · intro hrem htail
    obtain ⟨hx, hs1⟩ := GenArena.remove_eq_some hrem
    have hlt : h1.index < s.entries.length := (List.getElem?_eq_some.mp hx).1
    have h1slot : s1.entries[h1.index]? =
        some (Entry.free (h1.generation + 1) s.next_free) := by
      rw [hs1]
      simp [List.getElem?_set, hlt]
    obtain ⟨eb, heb, hfl⟩ := floorMono_runA htail h1.index _ h1slot
    refine get_none_of_floor_gt (fun e he => ?_)
    obtain rfl : e = eb := by injection he.symm.trans heb
    simp only [slotFloor] at hfl ⊢
    omega
  · intro hg4 htl
    obtain ⟨v4, hv4⟩ := Option.isSome_iff_exists.mp hg4
    rw [get_eq_some_iff] at hv4
    have hslot : s.clear.entries[h4.index]? =
        some (Entry.free (h4.generation + 1)
          (if h4.index + 1 = s.entries.length then none else some (h4.index + 1))) := by
      simp [GenArena.clear, List.getElem?_mapIdx, hv4, GenArena.clearedEntry]
    obtain ⟨eb, heb, hfl⟩ := floorMono_runA htl h4.index _ hslot
    refine get_none_of_floor_gt (fun e he => ?_)
    obtain rfl : e = eb := by injection he.symm.trans heb
    simp only [slotFloor] at hfl ⊢
    omega

/-- Concrete states for the churn-safety witness: push 7, remove it, push 9
into the reused slot. -/
def c3s : GenArena Nat :=
  (runA [AOp.push 7] (GenArena.new : GenArena Nat)).getD (GenArena.withCapacity 0)

def c3s1 : GenArena Nat :=
  ((c3s.remove ⟨0, 0⟩).getD (0, GenArena.withCapacity 0)).2

def c3s2 : GenArena Nat :=
  (runA [AOp.push 9] c3s1).getD (GenArena.withCapacity 0)

def c3s3 : GenArena Nat :=
  (runA [] c3s.clear).getD (GenArena.withCapacity 0)

/-- Witness for `genarena_handle_churn_safety` at a concrete run. -/
theorem genarena_handle_churn_safety_witness :
    (((c3s.get ⟨0, 1⟩).isSome → (c3s.get ⟨0, 0⟩).isSome →
        (⟨0, 1⟩ : Index).index = (⟨0, 0⟩ : Index).index → (⟨0, 1⟩ : Index) = ⟨0, 0⟩)
  ∧ (c3s.remove ⟨0, 0⟩ = some (7, c3s1) → runA [AOp.push 9] c3s1 = some c3s2 →
        c3s2.get ⟨0, 0⟩ = none)
  ∧ ((c3s.get ⟨0, 0⟩).isSome → runA [] c3s.clear = some c3s3 →
        c3s3.get ⟨0, 0⟩ = none)) :=
  genarena_handle_churn_safety [AOp.push 7] [AOp.push 9] [] c3s c3s1 c3s2 c3s3
    ⟨0, 0⟩ ⟨0, 1⟩ ⟨0, 0⟩ ⟨0, 0⟩ 7 (by decide)

end Smec

namespace Smec

/-!
## The component schema

`define_entity!` (`src/macro_define.rs`) is a compile-time code generator;
we instantiate its output at the representative schema used by the
repository tests (`tests/basic.rs`): one property and three component types
`a`, `b`, `c`, whose payloads we model as `Nat`.  `CompId` stands for
`std::any::TypeId` restricted to the three component types of the schema.
-/

/-- The `TypeId`s of the schema's component types, in declaration order. -/
inductive CompId where
  | a
  | b
  | c
deriving DecidableEq, Repr

/-- `for_all_components` visits the component types in declaration order. -/
def allComps : List CompId := [CompId.a, CompId.b, CompId.c]

/-!
## The attachment pool

The external `slab` crate backs each per-component pool
(`Slab<$componenttype>` in the generated `ComponentsStorage`).  We model a
slab as a list of optional payloads indexed by the `usize` keys the crate
hands out: `insert` stores the value at a currently unused key and returns
the key, `get` resolves a key, `remove` frees the key and returns the value
and panics (`none`) on a dead key.  (The real crate allocates the most
recently freed key first; which unused key `insert` picks is not observable
through the smec API, and the model reuses the lowest one.)
-/

/-- Model of `slab::Slab<T>`: payload at key `k` is `entries[k] = some v`. -/
abbrev Slab (α : Type) : Type := List (Option α)

/-- `Slab::insert`: store at an unused key (the lowest free one in the
model) and return the key. -/
def slabInsert (s : Slab α) (v : α) : Slab α × Nat :=
  match s.findIdx? Option.isNone with
  | some k => (s.set k (some v), k)
  | none => (s ++ [some v], s.length)

/-- `Slab::get`. -/
def slabGet (s : Slab α) (k : Nat) : Option α :=
  (s[k]?).join

/-- `Slab::remove`: panics (`none`) when the key is not occupied. -/
def slabRemove (s : Slab α) (k : Nat) : Option (α × Slab α) :=
  match slabGet s k with
  | some v => some (v, s.set k none)
  | none => none

/-- `ComponentsStorage` generated for the schema: one slab per component
type (`src/macro_define.rs`). -/
structure CS where
  a : Slab Nat
  b : Slab Nat
  c : Slab Nat

/-- `ComponentsStorage::new()`: empty slabs. -/
def CS.new : CS := ⟨([] : Slab Nat), ([] : Slab Nat), ([] : Slab Nat)⟩

/-- The slab of one component type. -/
def CS.slabOf (cs : CS) : CompId → Slab Nat
  | .a => cs.a
  | .b => cs.b
  | .c => cs.c

/-- Replace the slab of one component type. -/
def CS.setSlab (cs : CS) : CompId → Slab Nat → CS
  | .a, s => { cs with a := s }
  | .b, s => { cs with b := s }
  | .c, s => { cs with c := s }

/-- The detached (`Owned`) entity generated by `define_entity!`: the
property by value plus, per component type, `Option<Box<C>>` — an owned
optional payload. -/
structure SEntity where
  prop : Nat
  ca : Option Nat
  cb : Option Nat
  cc : Option Nat
deriving DecidableEq, Repr

/-- The pooled (`EntityRef`) entity: the property plus, per component type,
`Option<usize>` — an optional key into that component's slab.  The
`components_storage` back-reference is not stored: following the spec's
design note for arena-based reimplementations, every pool access below
takes the owning collection's `CS` as an explicit argument. -/
structure EntityRef where
  prop : Nat
  ka : Option Nat
  kb : Option Nat
  kc : Option Nat
deriving DecidableEq, Repr

/-- The detached payload of one component type. -/
def payloadOf (e : SEntity) : CompId → Option Nat
  | .a => e.ca
  | .b => e.cb
  | .c => e.cc

/-- The stored pool key of one component type (`RefComponent::get_cs_id`). -/
def keyOf (e : EntityRef) : CompId → Option Nat
  | .a => e.ka
  | .b => e.kb
  | .c => e.kc

/-- Replace the stored pool key of one component type. -/
def setKey (e : EntityRef) : CompId → Option Nat → EntityRef
  | .a, k => { e with ka := k }
  | .b, k => { e with kb := k }
  | .c, k => { e with kc := k }

/-- `for_each_active_component` on a detached entity: the component types
whose payload is present, in declaration order. -/
def activeComps (e : SEntity) : List CompId :=
  allComps.filter (fun t => (payloadOf e t).isSome)

/-- `Component::get` on a pooled entity (`src/macro_define.rs`): resolve the
stored key, if any, through the storage; `has::<C>()` is its `isSome`. -/
def refGet (cs : CS) (t : CompId) (e : EntityRef) : Option Nat :=
  match keyOf e t with
  | some k => slabGet (cs.slabOf t) k
  | none => none

/-- `EntityBase::has::<C>()` on a pooled entity. -/
def hasComp (cs : CS) (t : CompId) (e : EntityRef) : Bool :=
  (refGet cs t e).isSome

/-- Migration of one component at insertion (`EntityRefBase::from_owned`,
field by field): `owned.$comp.take().map(|c| storage.$comp.insert(*c))`. -/
def migrateInto : Option Nat → Slab Nat → Option Nat × Slab Nat
  | none, s => (none, s)
  | some v, s =>
      let r := slabInsert s v
      (some r.2, r.1)

/-- `EntityRefBase::from_owned`: move every present payload into its pool
and store the returned keys. -/
def fromOwned (owned : SEntity) (cs : CS) : EntityRef × CS :=
  let ra := migrateInto owned.ca cs.a
  let rb := migrateInto owned.cb cs.b
  let rc := migrateInto owned.cc cs.c
  (⟨owned.prop, ra.1, rb.1, rc.1⟩, ⟨ra.2, rb.2, rc.2⟩)

/-- Draining of one component at removal (`EntityRefBase::to_owned`, field
by field): `self.$comp.map(|id| Box::new(storage.$comp.remove(id)))`; the
slab `remove` panics (`none`) on a dead key. -/
def drainFrom : Option Nat → Slab Nat → Option (Option Nat × Slab Nat)
  | none, s => some (none, s)
  | some k, s => (slabRemove s k).map (fun r => (some r.1, r.2))

/-- `EntityRefBase::to_owned`: take every referenced payload back out of the
pools. -/
def toOwned (e : EntityRef) (cs : CS) : Option (SEntity × CS) :=
  match drainFrom e.ka cs.a with
  | none => none
  | some (pa, sa) =>
      match drainFrom e.kb cs.b with
      | none => none
      | some (pb, sb) =>
          match drainFrom e.kc cs.c with
          | none => none
          | some (pc, sc) => some (⟨e.prop, pa, pb, pc⟩, ⟨sa, sb, sc⟩)

end Smec

namespace Smec

/-!
## The collection (`EntityList`, `src/entity_list.rs`)

`bitsets` maps each component `TypeId` to a `hibitset::BitSet`; after
`init_bitsets` every component type of the schema has a bitset, so the map
is total and each bitset is modelled as a `Finset Nat` of the set bit
indices (a hibitset iterates its set bits in increasing order; capacity
hints do not affect its contents).
-/

/-- `EntityList<EntityRef>` for the schema: the per-type presence bitsets,
the arena of pooled entities, and the shared components storage. -/
structure EntityList where
  bitsets : CompId → Finset Nat
  entities : GenArena EntityRef
  cs : CS

namespace EntityList

/-- `EntityList::new()`: empty bitsets for every component type of the
schema (`init_bitsets`), a fresh arena, a fresh storage. -/
def new : EntityList :=
  { bitsets := fun _ => ∅, entities := GenArena.new, cs := CS.new }

/-- `EntityList::insert`: record the owned entity's active component types,
migrate it into pooled form, push it into the arena, then set the presence
bit of each active type at the new handle's index.  `none` when the arena
push panics. -/
def insert (L : EntityList) (owned : SEntity) : Option (Index × EntityList) :=
  match L.entities.push (fromOwned owned L.cs).1 with
  | some (arena1, entityId) =>
      some (entityId,
        { bitsets := fun t =>
            if (activeComps owned).contains t then
              Insert.insert entityId.index (L.bitsets t)
            else L.bitsets t,
          entities := arena1,
          cs := (fromOwned owned L.cs).2 })
  | none => none

/-- `EntityList::remove`: remove from the arena; on success clear the
presence bit of each of the removed entity's active component types at the
removed index and convert the entity back to owned form.  The outer `none`
is the panic of `to_owned` on a dead pool key; `some (none, L)` is the
silent no-op on a stale handle. -/
def remove (L : EntityList) (id : Index) : Option (Option SEntity × EntityList) :=
  match L.entities.remove id with
  | none => some (none, L)
  | some (e, arena1) =>
      match toOwned e L.cs with
      | none => none
      | some (owned, cs1) =>
          some (some owned,
            { bitsets := fun t =>
                if (keyOf e t).isSome then (L.bitsets t).erase id.index
                else L.bitsets t,
              entities := arena1,
              cs := cs1 })

/-- Overwrite the value of a live slot (the write-back through the `&mut`
reference `GenArena::get_mut` hands out); the arena is unchanged when the
handle is stale. -/
def setValue (a : GenArena T) (id : Index) (v : T) : GenArena T :=
  match a.entries[id.index]? with
  | some (Entry.occupied g _) =>
      if g = id.generation then
        { a with entries := a.entries.set id.index (Entry.occupied g v) }
      else a
  | _ => a

/-- `EntityList::refresh`: if the handle is live, re-derive this index's bit
in every component type's bitset from the entity's current attachment
presence (`for_each_component`); no-op on a stale handle. -/
def refresh (L : EntityList) (id : Index) : EntityList :=
  match L.entities.get id with
  | some e =>
      { L with bitsets := fun t =>
          if (keyOf e t).isSome then Insert.insert id.index (L.bitsets t)
          else (L.bitsets t).erase id.index }
  | none => L

/-- `Component::set` for the pooled entity (`src/macro_define.rs`): if the
entity already stores a key that resolves in the pool, overwrite the pooled
payload in place; otherwise insert a fresh payload and store its key. -/
def refSet (cs : CS) (t : CompId) (e : EntityRef) (v : Nat) : EntityRef × CS :=
  match keyOf e t with
  | some k =>
      if (slabGet (cs.slabOf t) k).isSome then
        (e, cs.setSlab t ((cs.slabOf t).set k (some v)))
      else
        let r := slabInsert (cs.slabOf t) v
        (setKey e t (some r.2), cs.setSlab t r.1)
  | none =>
      let r := slabInsert (cs.slabOf t) v
      (setKey e t (some r.2), cs.setSlab t r.1)

/-- `EntityList::add_component_for_entity`: on a live handle, set the
component through the entity's accessor and set the one presence bit,
returning `none`; on a stale handle hand the payload back. -/
def addComponentForEntity (L : EntityList) (id : Index) (t : CompId) (v : Nat) :
    Option Nat × EntityList :=
  match L.entities.get id with
  | none => (some v, L)
  | some e =>
      let r := refSet L.cs t e v
      (none,
        { bitsets := fun u =>
            if u = t then Insert.insert id.index (L.bitsets u) else L.bitsets u,
          entities := setValue L.entities id r.1,
          cs := r.2 })

/-- `Component::remove` for the pooled entity: take the stored key and
remove the payload from the pool (panicking, `none`, on a dead key).
Returns the payload, the updated entity, and the updated storage;
`some none` when the entity did not carry the component. -/
def refRemove (cs : CS) (t : CompId) (e : EntityRef) :
    Option (Option (Nat × EntityRef × CS)) :=
  match keyOf e t with
  | none => some none
  | some k =>
      match slabRemove (cs.slabOf t) k with
      | none => none
      | some (v, s1) => some (some (v, setKey e t none, cs.setSlab t s1))

/-- `EntityList::remove_component_for_entity`: on a live handle, remove the
component through the entity's accessor; if a payload came out, clear the
one presence bit.  The outer `none` is the pool panic on a dead key. -/
def removeComponentForEntity (L : EntityList) (id : Index) (t : CompId) :
    Option (Option Nat × EntityList) :=
  match L.entities.get id with
  | none => some (none, L)
  | some e =>
      match refRemove L.cs t e with
      | none => none
      | some none => some (none, L)
      | some (some (v, e1, cs1)) =>
          some (some v,
            { bitsets := fun u =>
                if u = t then (L.bitsets u).erase id.index else L.bitsets u,
              entities := setValue L.entities id e1,
              cs := cs1 })

/-- Direct mutation through `EntityList::get_mut` followed by
`entity.remove::<C>()` (`EntityBase::remove`, `src/entity.rs`), the path the
docs warn about: the component is removed from the entity and its pool, but
no presence bit is touched.  `none` when the handle is stale or the pool
panics. -/
def removeViaGetMut (L : EntityList) (id : Index) (t : CompId) :
    Option EntityList :=
  match L.entities.get id with
  | none => none
  | some e =>
      match refRemove L.cs t e with
      | none => none
      | some none => some L
      | some (some (_, e1, cs1)) =>
          some { L with entities := setValue L.entities id e1, cs := cs1 }

/-- `EntityList::get`. -/
def get (L : EntityList) (id : Index) : Option EntityRef :=
  L.entities.get id

/-- `EntityList::len`. -/
def len (L : EntityList) : Nat :=
  L.entities.length

end EntityList

/-- One mutating collection operation, for quantifying over call
sequences. -/
inductive EOp where
  | insert (owned : SEntity)
  | remove (id : Index)
  | refresh (id : Index)
  | addComp (id : Index) (t : CompId) (v : Nat)
  | removeComp (id : Index) (t : CompId)

/-- Apply one collection operation; `none` when it panics. -/
def applyEOp (L : EntityList) : EOp → Option EntityList
  | .insert owned => (L.insert owned).map Prod.snd
  | .remove id => (L.remove id).map Prod.snd
  | .refresh id => some (L.refresh id)
  | .addComp id t v => some (L.addComponentForEntity id t v).2
  | .removeComp id t => (L.removeComponentForEntity id t).map Prod.snd

/-- Run a sequence of collection operations, aborting at the first panic. -/
def runE : List EOp → EntityList → Option EntityList
  | [], L => some L
  | op :: ops, L =>
      match applyEOp L op with
      | some L1 => runE ops L1
      | none => none

/-!
## The query iteration engine (`src/iter.rs`)

`MultiComponentIter::next` maps every index its bit iterator yields through
`GenArena::get_raw`, panicking (`FATAL_ERR_BITSET`) when the slot is not
occupied.  Draining such an iterator is modelled by mapping the panicking
lookup over the list of set bits in increasing order, where any panic makes
the whole drain `none`.
-/

/-- Drain a panicking iterator: `none` as soon as one element panics. -/
def seqMap (f : α → Option β) : List α → Option (List β)
  | [] => some []
  | x :: xs =>
      match f x, seqMap f xs with
      | some y, some ys => some (y :: ys)
      | _, _ => none

/-- The set bits of a bitset in increasing order (`BitIter`). -/
def sortedBits (s : Finset Nat) : List Nat :=
  s.sort (· ≤ ·)

/-- The `get_raw` lookup `MultiComponentIter::next` performs for one set
bit, reconstructing the handle from the index and the live generation. -/
def rawLookup (a : GenArena EntityRef) (i : Nat) : Option (Index × EntityRef) :=
  (a.getRaw i).map (fun r => (⟨i, r.2⟩, r.1))

/-- Drain `MultiComponentIter` over a given bitset value. -/
def iterOn (L : EntityList) (bits : Finset Nat) : Option (List (Index × EntityRef)) :=
  seqMap (rawLookup L.entities) (sortedBits bits)

/-- `iter::<(C,)>()` drained: the single-type query iterates the one
presence bitset (`MultiComponent for (C,)`). -/
def iterComp (L : EntityList) (t : CompId) : Option (List (Index × EntityRef)) :=
  iterOn L (L.bitsets t)

/-- `iter::<(C1, C2)>()` drained: the two-type query iterates
`BitSetAnd(bitset C1, bitset C2)`, whose set bits are the intersection. -/
def iterPair (L : EntityList) (t1 t2 : CompId) : Option (List (Index × EntityRef)) :=
  iterOn L (L.bitsets t1 ∩ L.bitsets t2)

/-- `iter_all()` drained: the thin pass-through to the arena's iterator. -/
def iterAll (L : EntityList) : List (Index × EntityRef) :=
  L.entities.iterList

/-- `iter::<()>()` drained: `MultiComponent for ()` uses `BitSetAll`, whose
bit iterator yields every index `0, 1, 2, …`, far past the arena's
capacity; `next` feeds each one to the panicking `get_raw` lookup.  The
model drains the first `capacity + 1` yields, which is always enough to
reach the panic: index `capacity` is out of bounds for `get_raw`. -/
def iterZeroTypes (L : EntityList) : Option (List (Index × EntityRef)) :=
  seqMap (rawLookup L.entities) (List.range (L.entities.entries.length + 1))

/-- Whether the drained query yields handle `h` (the claim-side "h appears
in `iter<T>()`"). -/
def yieldedBy (r : Option (List (Index × EntityRef))) (h : Index) : Bool :=
  match r with
  | some l => l.any (fun p => p.1 = h)
  | none => false

/-- The claim-side right end: `get(h)` returns an entity whose `has::<T>()`
is true. -/
def getHas (L : EntityList) (t : CompId) (h : Index) : Bool :=
  match L.get h with
  | some e => hasComp L.cs t e
  | none => false

end Smec

namespace Smec

theorem seqMap_isSome_of_mem {f : α → Option β} {xs : List α} {l : List β}
    (h : seqMap f xs = some l) {x : α} (hx : x ∈ xs) : (f x).isSome := by
  induction xs generalizing l with
  | nil => cases hx
  | cons y ys ih =>
      simp only [seqMap] at h
      cases hfy : f y with
      | none => rw [hfy] at h; exact absurd h (by simp)
      | some z =>
          rw [hfy] at h
          cases hys : seqMap f ys with
          | none => rw [hys] at h; exact absurd h (by simp)
          | some zs =>
              cases hx with
              | head => simp [hfy]
              | tail _ hmem => exact ih hys hmem

theorem seqMap_isSome {f : α → Option β} {xs : List α}
    (h : ∀ x ∈ xs, (f x).isSome) : (seqMap f xs).isSome := by
  induction xs with
  | nil => simp [seqMap]
  | cons y ys ih =>
      simp only [seqMap]
      obtain ⟨z, hz⟩ := Option.isSome_iff_exists.mp (h y (List.mem_cons_self y ys))
      obtain ⟨zs, hzs⟩ := Option.isSome_iff_exists.mp
        (ih (fun x hx => h x (List.mem_cons_of_mem y hx)))
      rw [hz, hzs]
      rfl

theorem seqMap_mem_iff {f : α → Option β} {xs : List α} {l : List β}
    (h : seqMap f xs = some l) {y : β} :
    y ∈ l ↔ ∃ x ∈ xs, f x = some y := by
  induction xs generalizing l with
  | nil =>
      obtain rfl : ([] : List β) = l := by injection h
      simp
  | cons z zs ih =>
      simp only [seqMap] at h
      cases hfz : f z with
      | none => rw [hfz] at h; exact absurd h (by simp)
      | some w =>
          rw [hfz] at h
          cases hzs : seqMap f zs with
          | none => rw [hzs] at h; exact absurd h (by simp)
          | some ws =>
              rw [hzs] at h
              obtain rfl : w :: ws = l := by injection h
              constructor
              · intro hy
                rcases List.mem_cons.mp hy with rfl | hy2
                · exact ⟨z, List.mem_cons_self z zs, hfz⟩
                · obtain ⟨x, hx, hfx⟩ := (ih hzs).mp hy2
                  exact ⟨x, List.mem_cons_of_mem z hx, hfx⟩
              · rintro ⟨x, hx, hfx⟩
                rcases List.mem_cons.mp hx with rfl | hx2
                · have hwy : w = y := by rw [hfz] at hfx; injection hfx
                  exact hwy ▸ List.mem_cons_self _ _
                · exact List.mem_cons_of_mem w ((ih hzs).mpr ⟨x, hx2, hfx⟩)

/-- C4: the zero-type query panics on every collection state, while the full
scan on a fresh collection yields the empty sequence: the two never agree.
`BitSetAll` makes the query walk every index; at the first index whose slot
is not `Occupied` (at latest, the arena's capacity, which is out of bounds)
`next` hits the `FATAL_ERR_BITSET` panic — a fresh collection already
panics at index 0. -/
theorem entity_list_zero_type_query_panics (L : EntityList) :
    iterZeroTypes L = none ∧ iterAll EntityList.new = [] := by
  constructor
  · cases hz : iterZeroTypes L with
    | none => rfl
    | some l =>
        have hmem : L.entities.entries.length ∈
            List.range (L.entities.entries.length + 1) := by
          simp
        have := seqMap_isSome_of_mem hz hmem
        simp only [rawLookup, GenArena.getRaw] at this
        rw [List.getElem?_eq_none (le_refl _)] at this
        simp at this
  · rfl

end Smec

namespace Smec

theorem slabGet_slabInsert_self {s : Slab α} {v : α} :
    slabGet (slabInsert s v).1 (slabInsert s v).2 = some v := by
  unfold slabInsert
  cases hf : s.findIdx? Option.isNone with
  | some k =>
      have hk : k < s.length := List.findIdx?_eq_some_iff_findIdx_eq.mp hf |>.1
      simp [slabGet, List.getElem?_set, hk]
  | none =>
      simp [slabGet, List.getElem?_concat_length]

theorem slabGet_slabInsert_of_ne {s : Slab α} {v : α} {j : Nat}
    (hj : j ≠ (slabInsert s v).2) :
    slabGet (slabInsert s v).1 j = slabGet s j := by
  unfold slabInsert at *
  cases hf : s.findIdx? Option.isNone with
  | some k =>
      rw [hf] at hj
      simp only [slabGet]
      rw [List.getElem?_set, if_neg (fun hh => hj (by simpa using hh.symm))]
  | none =>
      rw [hf] at hj
      simp only [slabGet]
      rw [List.getElem?_append]
      by_cases hlt : j < s.length
      · rw [if_pos hlt]
      · rw [if_neg hlt]
        have hgt : s.length < j := by
          rcases Nat.lt_or_ge s.length j with h1 | h1
          · exact h1
          · exact absurd (Nat.le_antisymm h1 (Nat.le_of_not_lt hlt)) (fun hh => hj (by simp [hh]))
        have h0 : 0 < j - s.length := by omega
        rw [List.getElem?_eq_none (l := s) (Nat.le_of_not_lt hlt)]
        cases hd : j - s.length with
        | zero => omega
        | succ m => simp

/-- The key `slabInsert` hands out was unused before the insertion. -/
theorem slabGet_of_insert_key {s : Slab α} {v : α} :
    slabGet s (slabInsert s v).2 = none := by
  unfold slabInsert
  cases hf : s.findIdx? Option.isNone with
  | some k =>
      have := List.findIdx?_eq_some_iff_findIdx_eq.mp hf
      have hk : k < s.length := this.1
      have hnone : s[k]!.isNone := by
        have := List.findIdx?_eq_some_iff_getElem.mp hf
        obtain ⟨h1, h2, _⟩ := this
        simp only [getElem!_pos s k hk]
        exact h2
      simp only [slabGet]
      rw [List.getElem?_eq_getElem hk]
      simp only [getElem!_pos s k hk] at hnone
      cases hval : s[k] with
      | none => simp
      | some w => rw [hval] at hnone; simp at hnone
  | none =>
      simp [slabGet, List.getElem?_eq_none (le_refl s.length)]

theorem slabRemove_eq_some {s : Slab α} {k : Nat} {v : α}
    (h : slabGet s k = some v) :
    slabRemove s k = some (v, s.set k none) := by
  unfold slabRemove
  rw [h]

/-- Migrating one component into a pool and draining it back out yields the
original payload. -/
theorem migrate_drain (p : Option Nat) (s : Slab Nat) :
    (drainFrom (migrateInto p s).1 (migrateInto p s).2).map Prod.fst = some p := by
  cases p with
  | none => rfl
  | some v =>
      simp only [migrateInto, drainFrom]
      rw [slabRemove_eq_some slabGet_slabInsert_self]
      rfl

end Smec

namespace Smec

theorem forceInsertAt_eq_some {a a1 : GenArena T} {idx : Nat} {v : T} {id : Index}
    (hf : a.forceInsertAt idx v = some (a1, id)) :
    id.index = idx ∧
    a.getRaw idx = none ∧
    a1.entries = a.entries.set idx (Entry.occupied id.generation v) ∧
    idx < a.entries.length := by
  unfold GenArena.forceInsertAt at hf
  split at hf
  next ng nf heq =>
    simp only [Option.some.injEq, Prod.mk.injEq] at hf
    obtain ⟨ha1, hid⟩ := hf
    have hidx : id.index = idx := by rw [← hid]
    have hgen : id.generation = ng := by rw [← hid]
    refine ⟨hidx, ?_, ?_, (List.getElem?_eq_some.mp heq).1⟩
    · simp [GenArena.getRaw, heq]
    · rw [← ha1, hgen]
  next => exact absurd hf (by simp)
  next => exact absurd hf (by simp)

theorem internalReserveExact_getRaw {a a1 : GenArena T} {n start : Nat}
    (h : a.internalReserveExact n = some (a1, start)) (i : Nat) :
    a1.getRaw i = a.getRaw i := by
  unfold GenArena.internalReserveExact at h
  split at h
  · exact absurd h (by simp)
  · simp only [Option.some.injEq, Prod.mk.injEq] at h
    obtain ⟨ha1, _⟩ := h
    rw [← ha1]
    simp only [GenArena.getRaw, List.getElem?_append]
    by_cases hi : i < a.entries.length
    · rw [if_pos hi]
    · rw [if_neg hi, List.getElem?_eq_none (l := a.entries) (Nat.le_of_not_lt hi)]
      by_cases hin : i - a.entries.length <
          (List.map (fun j => Entry.free (T := T) 0 (some (a.entries.length + j + 1)))
            (List.range (n - 1))).length
      · rw [if_pos hin, List.getElem?_map]
        cases hr : (List.range (n - 1))[i - a.entries.length]? with
        | none => rfl
        | some m => rfl
      · rw [if_neg hin]
        cases hs : ([Entry.free (T := T) 0 a.next_free])[i - a.entries.length -
            (List.map (fun j => Entry.free (T := T) 0 (some (a.entries.length + j + 1)))
              (List.range (n - 1))).length]? with
        | none => rfl
        | some e =>
            rcases List.mem_singleton.mp (List.getElem?_mem hs) with rfl
            rfl

/-- Characterization of a successful `push`: the returned handle's slot was
not occupied before, now holds the pushed value with the handle's
generation, and every other slot's occupancy is untouched. -/
theorem push_eq_some {a a1 : GenArena T} {v : T} {id : Index}
    (hp : a.push v = some (a1, id)) :
    a.getRaw id.index = none ∧
    a1.entries[id.index]? = some (Entry.occupied id.generation v) ∧
    (∀ i, i ≠ id.index → a1.getRaw i = a.getRaw i) := by
  unfold GenArena.push at hp
  split at hp
  next nf hnf =>
    obtain ⟨hidx, hraw, hset, hlt⟩ := forceInsertAt_eq_some hp
    subst hidx
    refine ⟨hraw, ?_, ?_⟩
    · rw [hset]
      simp [List.getElem?_set, hlt]
    · intro i hi
      simp only [GenArena.getRaw, hset]
      rw [List.getElem?_set, if_neg (fun hh => hi hh.symm)]
  next =>
    split at hp
    next a2 nf hres =>
      obtain ⟨hidx, hraw, hset, hlt⟩ := forceInsertAt_eq_some hp
      subst hidx
      have hfr := internalReserveExact_getRaw hres
      refine ⟨by rw [← hfr]; exact hraw, ?_, ?_⟩
      · rw [hset]
        simp [List.getElem?_set, hlt]
      · intro i hi
        rw [← hfr]
        simp only [GenArena.getRaw, hset]
        rw [List.getElem?_set, if_neg (fun hh => hi hh.symm)]
    next => exact absurd hp (by simp)

/-- The owned record handed back by `EntityList::remove`, when removal
succeeds with a payload. -/
def removeOwned (L : EntityList) (h : Index) : Option SEntity :=
  match L.remove h with
  | some (some r, _) => some r
  | _ => none

/-- C5: inserting a detached record and removing it again by the returned
handle yields a detached record equal to the original — same property and,
for every attachment type, the same payload. -/
theorem entity_roundtrip_insert_remove (L L1 : EntityList) (r : SEntity) (h : Index)
    (hins : L.insert r = some (h, L1)) :
    removeOwned L1 h = some r := by
  unfold EntityList.insert at hins
  split at hins
  next arena1 id hpush =>
    simp only [Option.some.injEq, Prod.mk.injEq] at hins
    obtain ⟨hid, hL1⟩ := hins
    subst hid
    subst hL1
    obtain ⟨_, hocc, _⟩ := push_eq_some hpush
    have hrem : arena1.remove id = some ((fromOwned r L.cs).1,
        { entries := arena1.entries.set id.index
            (Entry.free (id.generation + 1) arena1.next_free),
          next_free := some id.index, length := arena1.length - 1 }) := by
      unfold GenArena.remove
      rw [hocc]
      simp
    have hda := migrate_drain r.ca L.cs.a
    have hdb := migrate_drain r.cb L.cs.b
    have hdc := migrate_drain r.cc L.cs.c
    obtain ⟨qa, hqa⟩ : ∃ q, drainFrom (migrateInto r.ca L.cs.a).1
        (migrateInto r.ca L.cs.a).2 = some q := by
      cases hx : drainFrom (migrateInto r.ca L.cs.a).1 (migrateInto r.ca L.cs.a).2 with
      | none => rw [hx] at hda; exact absurd hda (by simp)
      | some q => exact ⟨q, rfl⟩
    obtain ⟨qb, hqb⟩ : ∃ q, drainFrom (migrateInto r.cb L.cs.b).1
        (migrateInto r.cb L.cs.b).2 = some q := by
      cases hx : drainFrom (migrateInto r.cb L.cs.b).1 (migrateInto r.cb L.cs.b).2 with
      | none => rw [hx] at hdb; exact absurd hdb (by simp)
      | some q => exact ⟨q, rfl⟩
    obtain ⟨qc, hqc⟩ : ∃ q, drainFrom (migrateInto r.cc L.cs.c).1
        (migrateInto r.cc L.cs.c).2 = some q := by
      cases hx : drainFrom (migrateInto r.cc L.cs.c).1 (migrateInto r.cc L.cs.c).2 with
      | none => rw [hx] at hdc; exact absurd hdc (by simp)
      | some q => exact ⟨q, rfl⟩
    obtain ⟨pa1, sa1⟩ := qa
    obtain ⟨pb1, sb1⟩ := qb
    obtain ⟨pc1, sc1⟩ := qc
    rw [hqa] at hda
    rw [hqb] at hdb
    rw [hqc] at hdc
    simp only [Option.map_some', Option.some.injEq] at hda hdb hdc
    subst hda
    subst hdb
    subst hdc
    have htoOwned : toOwned (fromOwned r L.cs).1 (fromOwned r L.cs).2 =
        some (r, ⟨sa1, sb1, sc1⟩) := by
      unfold toOwned fromOwned
      dsimp only
      rw [hqa, hqb, hqc]
    unfold removeOwned EntityList.remove
    simp only [hrem, htoOwned]
  next => exact absurd hins (by simp)

end Smec

namespace Smec

/-- Concrete record and post-insertion state for the round-trip witness. -/
def c5r : SEntity := ⟨9, some 1, none, some 3⟩

def c5L1 : EntityList :=
  ((EntityList.new.insert c5r).getD (⟨0, 0⟩, EntityList.new)).2

/-- Witness for `entity_roundtrip_insert_remove` at a concrete record. -/
theorem entity_roundtrip_insert_remove_witness :
    removeOwned c5L1 ⟨0, 0⟩ = some c5r :=
  entity_roundtrip_insert_remove EntityList.new c5L1 c5r ⟨0, 0⟩ rfl

end Smec

namespace Smec

/-!
## Serialization (`src/serde.rs`)

`Serialize for EntityList` emits four fields: the arena's entry sequence
verbatim with each pooled record projected to its "naked" form
(`as_naked`), the arena's `length`, its `next_free` head, and the
components storage.  In the model the naked record — property plus the
per-component optional pool keys, minus the weak storage back-reference —
coincides with `EntityRef` itself, so `as_naked`/`from_naked` are the
identity; likewise the storage's slab contents serialize as their full
key-to-payload maps, which is exactly the model's `Slab` representation
(the real `slab` crate loses only its vacancy free-list positions, state
the model does not carry). -/

/-- `EntityRefBase::as_naked` (`src/macro_define.rs`): drop the storage
back-reference, keep property and keys. -/
def asNaked (e : EntityRef) : EntityRef := e

/-- `EntityRefBase::from_naked`: reattach a (modelled-away) storage
reference to a naked record. -/
def fromNaked (e : EntityRef) : EntityRef := e

/-- The serialized form of an `EntityList` (`Serialize for EntityList`,
`src/serde.rs`): `entries`, `length`, `next_free`, `components_storage`. -/
structure SerializedEntityList where
  entries : List (Entry EntityRef)
  length : Nat
  next_free : Option Nat
  components_storage : CS

/-- `Serialize for EntityList` (`src/serde.rs`). -/
def serializeEL (L : EntityList) : SerializedEntityList :=
  { entries := L.entities.entries.map (Entry.map asNaked),
    length := L.entities.length,
    next_free := L.entities.next_free,
    components_storage := L.cs }

/-- Modelled from the spec: `EntityList::from_raw`, which
`EntityListVisitor::visit_seq` (`src/serde.rs`) calls to assemble the
deserialized collection, is absent from the sources (only its caller is
present).  The spec makes the Presence Index a cache of record state — bit
`i` of type `T`'s bitset is set iff slot `i` is Occupied and its record
carries `T` — so the reconstruction derives each bitset from the stored
records, as the leftover `regenerate_all_component_bitsets` helper in
`src/entity_list.rs` does. -/
def elFromRaw (entities : GenArena EntityRef) (cs : CS) : EntityList :=
  { bitsets := fun t =>
      ((List.range entities.entries.length).filter (fun i =>
        match entities.entries[i]? with
        | some (Entry.occupied _ e) => (keyOf e t).isSome
        | _ => false)).toFinset,
    entities := entities,
    cs := cs }

/-- `EntityListVisitor::visit_seq` (`src/serde.rs`): read the four fields,
map every entry's naked record back to pooled form against the rebuilt
storage, and reassemble via `GenArena::from_raw` and `EntityList::from_raw`. -/
def deserializeEL (s : SerializedEntityList) : EntityList :=
  elFromRaw
    (GenArena.fromRaw (s.entries.map (Entry.map fromNaked)) s.length s.next_free)
    s.components_storage

/-- What a handle resolves to, up to logical value: the record's property
together with the payload its stored key resolves to for the requested
attachment type. -/
def logicalGet (L : EntityList) (t : CompId) (h : Index) : Option (Nat × Option Nat) :=
  (L.get h).map (fun e => (e.prop, refGet L.cs t e))

theorem entry_map_naked_roundtrip (e : Entry EntityRef) :
    Entry.map fromNaked (Entry.map asNaked e) = e := by
  cases e <;> rfl

/-- C9: serialization emits the arena's entry sequence verbatim (in naked
form), the `length` counter, the `next_free` head, and the full storage;
deserializing that output yields a collection in which every handle
resolves exactly as before — valid handles to the same logical value,
invalid handles to nothing. -/
theorem entity_list_serde_roundtrip (L : EntityList) (t : CompId) (h : Index) :
    (serializeEL L).entries = L.entities.entries.map (Entry.map asNaked)
  ∧ (serializeEL L).length = L.entities.length
  ∧ (serializeEL L).next_free = L.entities.next_free
  ∧ (serializeEL L).components_storage = L.cs
  ∧ (deserializeEL (serializeEL L)).get h = L.get h
  ∧ logicalGet (deserializeEL (serializeEL L)) t h = logicalGet L t h := by
  have harena : (deserializeEL (serializeEL L)).entities = L.entities := by
    simp only [deserializeEL, serializeEL, elFromRaw, GenArena.fromRaw,
      List.map_map]
    have : (Entry.map fromNaked ∘ Entry.map asNaked) =
        (fun e : Entry EntityRef => e) := by
      funext e
      exact entry_map_naked_roundtrip e
    rw [this, List.map_id']
  have hcs : (deserializeEL (serializeEL L)).cs = L.cs := rfl
  refine ⟨rfl, rfl, rfl, rfl, ?_, ?_⟩
  · show (deserializeEL (serializeEL L)).entities.get h = L.entities.get h
    rw [harena]
  · unfold logicalGet
    show ((deserializeEL (serializeEL L)).entities.get h).map _ =
      (L.entities.get h).map _
    rw [harena, hcs]

end Smec

namespace Smec

theorem getRaw_eq_some_iff {a : GenArena T} {i : Nat} {v : T} {g : Nat} :
    a.getRaw i = some (v, g) ↔ a.entries[i]? = some (Entry.occupied g v) := by
  unfold GenArena.getRaw
  constructor
  · intro h
    split at h
    next g2 v2 heq =>
      obtain ⟨rfl, rfl⟩ : v2 = v ∧ g2 = g := by simpa using h
      exact heq
    next => exact absurd h (by simp)
  · intro h
    rw [h]

theorem get_eq_some_of_getRaw {a : GenArena T} {h : Index} {v : T}
    (hr : a.getRaw h.index = some (v, h.generation)) : a.get h = some v := by
  rw [get_eq_some_iff]
  exact getRaw_eq_some_iff.mp hr

theorem getRaw_of_get_eq_some {a : GenArena T} {h : Index} {v : T}
    (hg : a.get h = some v) : a.getRaw h.index = some (v, h.generation) := by
  rw [get_eq_some_iff] at hg
  exact getRaw_eq_some_iff.mpr hg

theorem remove_getRaw {a a1 : GenArena T} {id : Index} {v : T}
    (hr : a.remove id = some (v, a1)) :
    a.getRaw id.index = some (v, id.generation) ∧
    a1.getRaw id.index = none ∧
    (∀ i, i ≠ id.index → a1.getRaw i = a.getRaw i) := by
  obtain ⟨hx, ha1⟩ := GenArena.remove_eq_some hr
  have hlt : id.index < a.entries.length := (List.getElem?_eq_some.mp hx).1
  subst ha1
  refine ⟨by simp [GenArena.getRaw, hx], ?_, ?_⟩
  · simp [GenArena.getRaw, List.getElem?_set, hlt]
  · intro i hi
    simp only [GenArena.getRaw]
    rw [List.getElem?_set, if_neg (fun hh => hi hh.symm)]

theorem setValue_getRaw {a : GenArena T} {id : Index} {e : T} (v : T)
    (hg : a.get id = some e) :
    ((EntityList.setValue a id v).getRaw id.index = some (v, id.generation)) ∧
    (∀ i, i ≠ id.index → (EntityList.setValue a id v).getRaw i = a.getRaw i) := by
  have hx := get_eq_some_iff.mp hg
  have hlt : id.index < a.entries.length := (List.getElem?_eq_some.mp hx).1
  unfold EntityList.setValue
  rw [hx]
  dsimp only
  rw [if_pos rfl]
  constructor
  · simp [GenArena.getRaw, List.getElem?_set, hlt]
  · intro i hi
    simp only [GenArena.getRaw]
    rw [List.getElem?_set, if_neg (fun hh => hi hh.symm)]

/-- All slots of a fresh arena are free. -/
theorem new_getRaw_none (i : Nat) : (GenArena.new : GenArena EntityRef).getRaw i = none := by
  unfold GenArena.getRaw
  cases hx : (GenArena.new : GenArena EntityRef).entries[i]? with
  | none => rfl
  | some e =>
      have hmem := List.getElem?_mem hx
      have hfree : isFreeEntry e = true := by
        revert hmem
        have : ∀ x ∈ (GenArena.new : GenArena EntityRef).entries, isFreeEntry x = true := by
          decide
        exact this e
      cases e with
      | free ng nf => rfl
      | occupied g v => simp [isFreeEntry] at hfree

end Smec

namespace Smec

theorem migrateInto_isSome (p : Option Nat) (s : Slab Nat) :
    ((migrateInto p s).1).isSome = p.isSome := by
  cases p <;> rfl

theorem migrateInto_get_self {p : Option Nat} {s : Slab Nat} {k : Nat}
    (hk : (migrateInto p s).1 = some k) :
    slabGet (migrateInto p s).2 k = p := by
  cases p with
  | none => exact absurd hk (by simp [migrateInto])
  | some v =>
      simp only [migrateInto, Option.some.injEq] at hk
      subst hk
      exact slabGet_slabInsert_self

theorem migrateInto_fresh_key {p : Option Nat} {s : Slab Nat} {k : Nat}
    (hk : (migrateInto p s).1 = some k) :
    slabGet s k = none := by
  cases p with
  | none => exact absurd hk (by simp [migrateInto])
  | some v =>
      simp only [migrateInto, Option.some.injEq] at hk
      subst hk
      exact slabGet_of_insert_key

theorem migrateInto_frame {p : Option Nat} {s : Slab Nat} {j : Nat} {w : Nat}
    (hj : slabGet s j = some w) :
    slabGet (migrateInto p s).2 j = some w := by
  cases p with
  | none => exact hj
  | some v =>
      simp only [migrateInto]
      by_cases hk : j = (slabInsert s v).2
      · rw [hk] at hj
        rw [slabGet_of_insert_key] at hj
        exact absurd hj (by simp)
      · rw [slabGet_slabInsert_of_ne hk]
        exact hj

theorem fromOwned_key (r : SEntity) (cs : CS) (t : CompId) :
    keyOf (fromOwned r cs).1 t = (migrateInto (payloadOf r t) (cs.slabOf t)).1 := by
  cases t <;> rfl

theorem fromOwned_slab (r : SEntity) (cs : CS) (t : CompId) :
    (fromOwned r cs).2.slabOf t = (migrateInto (payloadOf r t) (cs.slabOf t)).2 := by
  cases t <;> rfl

theorem contains_activeComps (r : SEntity) (t : CompId) :
    (activeComps r).contains t = (payloadOf r t).isSome := by
  cases t <;> cases hca : r.ca <;> cases hcb : r.cb <;> cases hcc : r.cc <;>
    simp [activeComps, allComps, payloadOf, List.filter, hca, hcb, hcc, List.contains]

theorem setKey_keyOf_self (e : EntityRef) (t : CompId) (k : Option Nat) :
    keyOf (setKey e t k) t = k := by
  cases t <;> rfl

theorem setKey_keyOf_ne (e : EntityRef) (t u : CompId) (k : Option Nat)
    (h : u ≠ t) : keyOf (setKey e t k) u = keyOf e u := by
  cases t <;> cases u <;> first | rfl | exact absurd rfl h

theorem setSlab_slabOf_self (cs : CS) (t : CompId) (s : Slab Nat) :
    (cs.setSlab t s).slabOf t = s := by
  cases t <;> rfl

theorem setSlab_slabOf_ne (cs : CS) (t u : CompId) (s : Slab Nat)
    (h : u ≠ t) : (cs.setSlab t s).slabOf u = cs.slabOf u := by
  cases t <;> cases u <;> first | rfl | exact absurd rfl h

end Smec

namespace Smec

theorem slabGet_isSome_lt {s : Slab α} {k : Nat} (h : (slabGet s k).isSome) :
    k < s.length := by
  by_contra hk
  rw [slabGet, List.getElem?_eq_none (Nat.le_of_not_lt hk)] at h
  simp [Option.join] at h

theorem slabGet_set_self {s : Slab α} {k : Nat} (v : α) (hk : k < s.length) :
    slabGet (s.set k (some v)) k = some v := by
  simp [slabGet, List.getElem?_set, hk]

theorem slabGet_set_ne {s : Slab α} {k j : Nat} (x : Option α) (h : j ≠ k) :
    slabGet (s.set k x) j = slabGet s j := by
  unfold slabGet
  rw [List.getElem?_set, if_neg (fun hh => h hh.symm)]

theorem refSet_eq_overwrite {cs : CS} {t : CompId} {e : EntityRef} {v k0 : Nat}
    (hke : keyOf e t = some k0) (hl : (slabGet (cs.slabOf t) k0).isSome) :
    EntityList.refSet cs t e v = (e, cs.setSlab t ((cs.slabOf t).set k0 (some v))) := by
  unfold EntityList.refSet
  rw [hke]
  dsimp only
  rw [if_pos hl]

theorem refSet_eq_fresh_of_dead {cs : CS} {t : CompId} {e : EntityRef} {v k0 : Nat}
    (hke : keyOf e t = some k0) (hl : ¬ (slabGet (cs.slabOf t) k0).isSome = true) :
    EntityList.refSet cs t e v =
      (setKey e t (some (slabInsert (cs.slabOf t) v).2),
       cs.setSlab t (slabInsert (cs.slabOf t) v).1) := by
  unfold EntityList.refSet
  rw [hke]
  dsimp only
  rw [if_neg hl]

theorem refSet_eq_fresh_of_none {cs : CS} {t : CompId} {e : EntityRef} {v : Nat}
    (hke : keyOf e t = none) :
    EntityList.refSet cs t e v =
      (setKey e t (some (slabInsert (cs.slabOf t) v).2),
       cs.setSlab t (slabInsert (cs.slabOf t) v).1) := by
  unfold EntityList.refSet
  rw [hke]

theorem refSet_key_isSome (cs : CS) (t : CompId) (e : EntityRef) (v : Nat) :
    (keyOf (EntityList.refSet cs t e v).1 t).isSome := by
  cases hke : keyOf e t with
  | some k0 =>
      by_cases hl : (slabGet (cs.slabOf t) k0).isSome
      · rw [refSet_eq_overwrite hke hl]
        simp [hke]
      · rw [refSet_eq_fresh_of_dead hke hl]
        simp [setKey_keyOf_self]
  | none =>
      rw [refSet_eq_fresh_of_none hke]
      simp [setKey_keyOf_self]

theorem refSet_key_ne (cs : CS) (t u : CompId) (e : EntityRef) (v : Nat)
    (h : u ≠ t) : keyOf (EntityList.refSet cs t e v).1 u = keyOf e u := by
  cases hke : keyOf e t with
  | some k0 =>
      by_cases hl : (slabGet (cs.slabOf t) k0).isSome
      · rw [refSet_eq_overwrite hke hl]
      · rw [refSet_eq_fresh_of_dead hke hl]
        exact setKey_keyOf_ne _ _ _ _ h
  | none =>
      rw [refSet_eq_fresh_of_none hke]
      exact setKey_keyOf_ne _ _ _ _ h

theorem refSet_slab_ne (cs : CS) (t u : CompId) (e : EntityRef) (v : Nat)
    (h : u ≠ t) : ((EntityList.refSet cs t e v).2).slabOf u = cs.slabOf u := by
  cases hke : keyOf e t with
  | some k0 =>
      by_cases hl : (slabGet (cs.slabOf t) k0).isSome
      · rw [refSet_eq_overwrite hke hl]
        exact setSlab_slabOf_ne _ _ _ _ h
      · rw [refSet_eq_fresh_of_dead hke hl]
        exact setSlab_slabOf_ne _ _ _ _ h
  | none =>
      rw [refSet_eq_fresh_of_none hke]
      exact setSlab_slabOf_ne _ _ _ _ h

theorem refSet_resolves (cs : CS) (t : CompId) (e : EntityRef) (v : Nat)
    {k : Nat} (hk : keyOf (EntityList.refSet cs t e v).1 t = some k) :
    slabGet ((EntityList.refSet cs t e v).2.slabOf t) k = some v := by
  cases hke : keyOf e t with
  | some k0 =>
      by_cases hl : (slabGet (cs.slabOf t) k0).isSome
      · rw [refSet_eq_overwrite hke hl] at hk ⊢
        rw [hke] at hk
        obtain rfl : k0 = k := by injection hk
        rw [setSlab_slabOf_self]
        exact slabGet_set_self v (slabGet_isSome_lt hl)
      · rw [refSet_eq_fresh_of_dead hke hl] at hk ⊢
        rw [setKey_keyOf_self] at hk
        obtain rfl : (slabInsert (cs.slabOf t) v).2 = k := by injection hk
        rw [setSlab_slabOf_self]
        exact slabGet_slabInsert_self
  | none =>
      rw [refSet_eq_fresh_of_none hke] at hk ⊢
      rw [setKey_keyOf_self] at hk
      obtain rfl : (slabInsert (cs.slabOf t) v).2 = k := by injection hk
      rw [setSlab_slabOf_self]
      exact slabGet_slabInsert_self

theorem refSet_key_cases (cs : CS) (t : CompId) (e : EntityRef) (v : Nat)
    {k : Nat} (hk : keyOf (EntityList.refSet cs t e v).1 t = some k) :
    keyOf e t = some k ∨ slabGet (cs.slabOf t) k = none := by
  cases hke : keyOf e t with
  | some k0 =>
      by_cases hl : (slabGet (cs.slabOf t) k0).isSome
      · rw [refSet_eq_overwrite hke hl] at hk
        dsimp only at hk
        rw [hke] at hk
        exact Or.inl hk
      · rw [refSet_eq_fresh_of_dead hke hl] at hk
        rw [setKey_keyOf_self] at hk
        obtain rfl : (slabInsert (cs.slabOf t) v).2 = k := by injection hk
        exact Or.inr slabGet_of_insert_key
  | none =>
      rw [refSet_eq_fresh_of_none hke] at hk
      rw [setKey_keyOf_self] at hk
      obtain rfl : (slabInsert (cs.slabOf t) v).2 = k := by injection hk
      exact Or.inr slabGet_of_insert_key

theorem refSet_frame (cs : CS) (t : CompId) (e : EntityRef) (v : Nat)
    {j w : Nat} (hj : slabGet (cs.slabOf t) j = some w)
    (hne : keyOf (EntityList.refSet cs t e v).1 t ≠ some j) :
    slabGet ((EntityList.refSet cs t e v).2.slabOf t) j = some w := by
  cases hke : keyOf e t with
  | some k0 =>
      by_cases hl : (slabGet (cs.slabOf t) k0).isSome
      · rw [refSet_eq_overwrite hke hl] at hne ⊢
        rw [hke] at hne
        rw [setSlab_slabOf_self]
        rw [slabGet_set_ne _ (fun hh => hne (by rw [hh]))]
        exact hj
      · rw [refSet_eq_fresh_of_dead hke hl] at hne ⊢
        rw [setKey_keyOf_self] at hne
        rw [setSlab_slabOf_self]
        rw [slabGet_slabInsert_of_ne (fun hh => hne (by rw [hh]))]
        exact hj
  | none =>
      rw [refSet_eq_fresh_of_none hke] at hne ⊢
      rw [setKey_keyOf_self] at hne
      rw [setSlab_slabOf_self]
      rw [slabGet_slabInsert_of_ne (fun hh => hne (by rw [hh]))]
      exact hj

end Smec

namespace Smec

theorem drainFrom_frame {ok : Option Nat} {s s1 : Slab Nat} {p : Option Nat}
    (h : drainFrom ok s = some (p, s1)) {j : Nat} (hj : ok ≠ some j) :
    slabGet s1 j = slabGet s j := by
  cases ok with
  | none =>
      obtain ⟨rfl, rfl⟩ : none = p ∧ s = s1 := by
        simp only [drainFrom, Option.some.injEq, Prod.mk.injEq] at h
        exact h
      rfl
  | some k =>
      simp only [drainFrom, slabRemove] at h
      cases hg : slabGet s k with
      | none => rw [hg] at h; exact absurd h (by simp)
      | some v =>
          rw [hg] at h
          simp only [Option.map_some', Option.some.injEq, Prod.mk.injEq] at h
          rw [← h.2]
          exact slabGet_set_ne _ (fun hh => hj (by rw [hh]))

theorem toOwned_slab {e : EntityRef} {cs : CS} {ow : SEntity} {cs1 : CS}
    (h : toOwned e cs = some (ow, cs1)) (t : CompId) :
    ∃ p, drainFrom (keyOf e t) (cs.slabOf t) = some (p, cs1.slabOf t) := by
  unfold toOwned at h
  split at h
  next => exact absurd h (by simp)
  next pa sa hpa =>
    split at h
    next => exact absurd h (by simp)
    next pb sb hpb =>
      split at h
      next => exact absurd h (by simp)
      next pc sc hpc =>
        have hcs1 : cs1 = ⟨sa, sb, sc⟩ := by
          simp only [Option.some.injEq, Prod.mk.injEq] at h
          exact h.2.symm
        subst hcs1
        cases t with
        | a => exact ⟨pa, hpa⟩
        | b => exact ⟨pb, hpb⟩
        | c => exact ⟨pc, hpc⟩

theorem refRemove_of_none_key {cs : CS} {t : CompId} {e : EntityRef}
    (hke : keyOf e t = none) : EntityList.refRemove cs t e = some none := by
  unfold EntityList.refRemove
  rw [hke]

theorem refRemove_of_live_key {cs : CS} {t : CompId} {e : EntityRef} {k v : Nat}
    (hke : keyOf e t = some k) (hg : slabGet (cs.slabOf t) k = some v) :
    EntityList.refRemove cs t e =
      some (some (v, setKey e t none, cs.setSlab t ((cs.slabOf t).set k none))) := by
  unfold EntityList.refRemove
  rw [hke]
  dsimp only
  rw [slabRemove_eq_some hg]

end Smec

namespace Smec

/-- The synchronization invariant every legal mutation path of an
`EntityList` maintains: (1) bit `i` of type `t`'s bitset is set iff slot `i`
is occupied by a record carrying `t`; (2) every stored pool key resolves in
its pool; (3) no two records share a pool key of the same type. -/
def ELInv (L : EntityList) : Prop :=
  (∀ (t : CompId) (i : Nat), i ∈ L.bitsets t ↔
      ∃ p : EntityRef × Nat, L.entities.getRaw i = some p ∧ (keyOf p.1 t).isSome)
  ∧ (∀ (i : Nat) (p : EntityRef × Nat) (t : CompId) (k : Nat),
      L.entities.getRaw i = some p → keyOf p.1 t = some k →
      (slabGet (L.cs.slabOf t) k).isSome)
  ∧ (∀ (i j : Nat) (p q : EntityRef × Nat) (t : CompId) (k : Nat),
      i ≠ j → L.entities.getRaw i = some p → L.entities.getRaw j = some q →
      keyOf p.1 t = some k → ¬ keyOf q.1 t = some k)

theorem ELInv_new : ELInv EntityList.new := by
  refine ⟨?_, ?_, ?_⟩
  · intro t i
    constructor
    · intro hmem
      exact absurd hmem (by simp [EntityList.new])
    · rintro ⟨p, hp, _⟩
      rw [show EntityList.new.entities = GenArena.new from rfl, new_getRaw_none] at hp
      exact absurd hp (by simp)
  · intro i p t k hp _
    rw [show EntityList.new.entities = GenArena.new from rfl, new_getRaw_none] at hp
    exact absurd hp (by simp)
  · intro i j p q t k _ hp _ _
    rw [show EntityList.new.entities = GenArena.new from rfl, new_getRaw_none] at hp
    exact absurd hp (by simp)

theorem ELInv_insert {L L1 : EntityList} {r : SEntity} {h : Index}
    (inv : ELInv L) (hins : L.insert r = some (h, L1)) : ELInv L1 := by
  obtain ⟨inv1, inv2, inv3⟩ := inv
  unfold EntityList.insert at hins
  split at hins
  next arena1 id hpush =>
    simp only [Option.some.injEq, Prod.mk.injEq] at hins
    obtain ⟨hid, hL1⟩ := hins
    subst hid
    subst hL1
    obtain ⟨hrawnone, hocc, hframe⟩ := push_eq_some hpush
    have hrawnew : arena1.getRaw id.index =
        some ((fromOwned r L.cs).1, id.generation) := getRaw_eq_some_iff.mpr hocc
    have hF1 : ∀ t, (keyOf (fromOwned r L.cs).1 t).isSome = (payloadOf r t).isSome := by
      intro t
      rw [fromOwned_key, migrateInto_isSome]
    have hF2 : ∀ t k, keyOf (fromOwned r L.cs).1 t = some k →
        (slabGet ((fromOwned r L.cs).2.slabOf t) k).isSome := by
      intro t k hk
      rw [fromOwned_key] at hk
      rw [fromOwned_slab, migrateInto_get_self hk]
      have hps := migrateInto_isSome (payloadOf r t) (L.cs.slabOf t)
      rw [hk] at hps
      exact hps.symm
    have hF3 : ∀ t k, keyOf (fromOwned r L.cs).1 t = some k →
        slabGet (L.cs.slabOf t) k = none := by
      intro t k hk
      rw [fromOwned_key] at hk
      exact migrateInto_fresh_key hk
    have hF4 : ∀ t j w, slabGet (L.cs.slabOf t) j = some w →
        slabGet ((fromOwned r L.cs).2.slabOf t) j = some w := by
      intro t j w hj
      rw [fromOwned_slab]
      exact migrateInto_frame hj
    refine ⟨?_, ?_, ?_⟩
    · intro t i
      dsimp only
      by_cases hi : i = id.index
      · subst hi
        cases hc : (activeComps r).contains t with
        | false =>
            rw [if_neg (by simp [hc])]
            constructor
            · intro hmem
              obtain ⟨p, hp, _⟩ := (inv1 t id.index).mp hmem
              rw [hrawnone] at hp
              exact absurd hp (by simp)
            · rintro ⟨p, hp, hkey⟩
              obtain rfl : p = ((fromOwned r L.cs).1, id.generation) := by
                injection hp.symm.trans hrawnew
              rw [contains_activeComps] at hc
              rw [hF1 t, hc] at hkey
              exact absurd hkey (by simp)
        | true =>
            rw [if_pos (by simp [hc])]
            constructor
            · intro _
              refine ⟨((fromOwned r L.cs).1, id.generation), hrawnew, ?_⟩
              rw [contains_activeComps] at hc
              rw [hF1 t, hc]
            · intro _
              exact Finset.mem_insert_self _ _
      · have hfr := hframe i hi
        have hsame : ∀ P : Prop, (i ∈ L.bitsets t ↔ P) →
            (i ∈ (if (activeComps r).contains t then
              Insert.insert id.index (L.bitsets t) else L.bitsets t) ↔ P) := by
          intro P hP
          split
          · rw [Finset.mem_insert]
            constructor
            · rintro (rfl | hm)
              · exact absurd rfl hi
              · exact hP.mp hm
            · intro hp
              exact Or.inr (hP.mpr hp)
          · exact hP
        refine (hsame _ ?_)
        rw [hfr] at *
        constructor
        · intro hm
          obtain ⟨p, hp, hk⟩ := (inv1 t i).mp hm
          exact ⟨p, by rw [hfr]; exact hp, hk⟩
        · rintro ⟨p, hp, hk⟩
          rw [hfr] at hp
          exact (inv1 t i).mpr ⟨p, hp, hk⟩
    · intro i p t k hp hk
      dsimp only at hp ⊢
      by_cases hi : i = id.index
      · subst hi
        obtain rfl : p = ((fromOwned r L.cs).1, id.generation) := by
          injection hp.symm.trans hrawnew
        exact hF2 t k hk
      · rw [hframe i hi] at hp
        obtain ⟨w, hw⟩ := Option.isSome_iff_exists.mp (inv2 i p t k hp hk)
        rw [hF4 t k w hw]
        rfl
    · intro i j p q t k hij hp hq hpk
      dsimp only at hp hq
      by_cases hi : i = id.index
      · subst hi
        obtain rfl : p = ((fromOwned r L.cs).1, id.generation) := by
          injection hp.symm.trans hrawnew
        have hj : j ≠ id.index := fun hh => hij hh.symm
        rw [hframe j hj] at hq
        intro hqk
        have := inv2 j q t k hq hqk
        rw [hF3 t k hpk] at this
        exact absurd this (by simp)
      · by_cases hj : j = id.index
        · subst hj
          obtain rfl : q = ((fromOwned r L.cs).1, id.generation) := by
            injection hq.symm.trans hrawnew
          rw [hframe i hi] at hp
          intro hqk
          have := inv2 i p t k hp hpk
          rw [hF3 t k hqk] at this
          exact absurd this (by simp)
        · rw [hframe i hi] at hp
          rw [hframe j hj] at hq
          exact inv3 i j p q t k hij hp hq hpk
  next => exact absurd hins (by simp)

end Smec

namespace Smec

theorem ELInv_remove {L L1 : EntityList} {id : Index} {x : Option SEntity}
    (inv : ELInv L) (hrem : L.remove id = some (x, L1)) : ELInv L1 := by
  obtain ⟨inv1, inv2, inv3⟩ := inv
  unfold EntityList.remove at hrem
  split at hrem
  next hnone =>
    obtain ⟨_, rfl⟩ : none = x ∧ L = L1 := by
      simp only [Option.some.injEq, Prod.mk.injEq] at hrem
      exact hrem
    exact ⟨inv1, inv2, inv3⟩
  next e arena1 har =>
    split at hrem
    next => exact absurd hrem (by simp)
    next owned cs1 htoOwned =>
      simp only [Option.some.injEq, Prod.mk.injEq] at hrem
      obtain ⟨_, hL1⟩ := hrem
      subst hL1
      obtain ⟨hrawold, hrawnone, hframe⟩ := remove_getRaw har
      have hdrain : ∀ t, ∃ p, drainFrom (keyOf e t) (L.cs.slabOf t) =
          some (p, cs1.slabOf t) := toOwned_slab htoOwned
      have hcsframe : ∀ t j, keyOf e t ≠ some j →
          slabGet (cs1.slabOf t) j = slabGet (L.cs.slabOf t) j := by
        intro t j hj
        obtain ⟨p, hp⟩ := hdrain t
        exact drainFrom_frame hp hj
      refine ⟨?_, ?_, ?_⟩
      · intro t i
        dsimp only
        by_cases hi : i = id.index
        · subst hi
          constructor
          · intro hmem
            cases hks : (keyOf e t).isSome with
            | true =>
                rw [if_pos (by simp [hks])] at hmem
                exact absurd (Finset.mem_erase.mp hmem).1 (by simp)
            | false =>
                rw [if_neg (by simp [hks])] at hmem
                obtain ⟨p, hp, hkey⟩ := (inv1 t id.index).mp hmem
                obtain rfl : p = (e, id.generation) := by
                  injection hp.symm.trans hrawold
                rw [hks] at hkey
                exact absurd hkey (by simp)
          · rintro ⟨p, hp, _⟩
            rw [hrawnone] at hp
            exact absurd hp (by simp)
        · have hfr := hframe i hi
          have hmix : i ∈ (if (keyOf e t).isSome then
              (L.bitsets t).erase id.index else L.bitsets t) ↔ i ∈ L.bitsets t := by
            split
            · rw [Finset.mem_erase]
              exact ⟨fun hh => hh.2, fun hh => ⟨hi, hh⟩⟩
            · exact Iff.rfl
          rw [hmix, hfr]
          exact inv1 t i
      · intro i p t k hp hk
        dsimp only at hp ⊢
        by_cases hi : i = id.index
        · subst hi
          rw [hrawnone] at hp
          exact absurd hp (by simp)
        · rw [hframe i hi] at hp
          have hne : keyOf e t ≠ some k := by
            intro hek
            exact inv3 id.index i (e, id.generation) p t k
              (fun hh => hi hh.symm) hrawold hp hek hk
          rw [hcsframe t k hne]
          exact inv2 i p t k hp hk
      · intro i j p q t k hij hp hq hpk
        dsimp only at hp hq
        by_cases hi : i = id.index
        · subst hi
          rw [hrawnone] at hp
          exact absurd hp (by simp)
        · by_cases hj : j = id.index
          · subst hj
            rw [hrawnone] at hq
            exact absurd hq (by simp)
          · rw [hframe i hi] at hp
            rw [hframe j hj] at hq
            exact inv3 i j p q t k hij hp hq hpk

theorem ELInv_refresh {L : EntityList} (inv : ELInv L) (id : Index) :
    ELInv (L.refresh id) := by
  obtain ⟨inv1, inv2, inv3⟩ := inv
  unfold EntityList.refresh
  split
  next e hget =>
    have hraw : L.entities.getRaw id.index = some (e, id.generation) :=
      getRaw_of_get_eq_some hget
    refine ⟨?_, inv2, inv3⟩
    intro t i
    dsimp only
    by_cases hi : i = id.index
    · subst hi
      cases hks : (keyOf e t).isSome with
      | true =>
          rw [if_pos (by simp [hks])]
          constructor
          · intro _
            exact ⟨(e, id.generation), hraw, hks⟩
          · intro _
            exact Finset.mem_insert_self _ _
      | false =>
          rw [if_neg (by simp [hks])]
          constructor
          · intro hmem
            exact absurd (Finset.mem_erase.mp hmem).1 (by simp)
          · rintro ⟨p, hp, hkey⟩
            obtain rfl : p = (e, id.generation) := by
              injection hp.symm.trans hraw
            rw [hks] at hkey
            exact absurd hkey (by simp)
    · have hmix : i ∈ (if (keyOf e t).isSome then
          Insert.insert id.index (L.bitsets t) else (L.bitsets t).erase id.index) ↔
          i ∈ L.bitsets t := by
        split
        · rw [Finset.mem_insert]
          exact ⟨fun hh => hh.resolve_left hi, fun hh => Or.inr hh⟩
        · rw [Finset.mem_erase]
          exact ⟨fun hh => hh.2, fun hh => ⟨hi, hh⟩⟩
      rw [hmix]
      exact inv1 t i
  next => exact ⟨inv1, inv2, inv3⟩

end Smec

namespace Smec

theorem ELInv_addComp {L : EntityList} (inv : ELInv L) (id : Index)
    (t : CompId) (v : Nat) :
    ELInv (L.addComponentForEntity id t v).2 := by
  obtain ⟨inv1, inv2, inv3⟩ := inv
  unfold EntityList.addComponentForEntity
  split
  next => exact ⟨inv1, inv2, inv3⟩
  next e hget =>
    have hrawold : L.entities.getRaw id.index = some (e, id.generation) :=
      getRaw_of_get_eq_some hget
    obtain ⟨hrawnew, hframe⟩ := setValue_getRaw (EntityList.refSet L.cs t e v).1 hget
    refine ⟨?_, ?_, ?_⟩
    · intro u i
      dsimp only
      by_cases hi : i = id.index
      · subst hi
        by_cases hu : u = t
        · subst hu
          rw [if_pos rfl]
          constructor
          · intro _
            refine ⟨((EntityList.refSet L.cs u e v).1, id.generation), hrawnew, ?_⟩
            exact refSet_key_isSome L.cs u e v
          · intro _
            exact Finset.mem_insert_self _ _
        · rw [if_neg hu]
          constructor
          · intro hmem
            obtain ⟨p, hp, hkey⟩ := (inv1 u id.index).mp hmem
            obtain rfl : p = (e, id.generation) := by
              injection hp.symm.trans hrawold
            refine ⟨((EntityList.refSet L.cs t e v).1, id.generation), hrawnew, ?_⟩
            rw [refSet_key_ne L.cs t u e v hu]
            exact hkey
          · rintro ⟨p, hp, hkey⟩
            obtain rfl : p = ((EntityList.refSet L.cs t e v).1, id.generation) := by
              injection hp.symm.trans hrawnew
            rw [refSet_key_ne L.cs t u e v hu] at hkey
            exact (inv1 u id.index).mpr ⟨(e, id.generation), hrawold, hkey⟩
      · have hfr := hframe i hi
        have hmix : i ∈ (if u = t then
            Insert.insert id.index (L.bitsets u) else L.bitsets u) ↔
            i ∈ L.bitsets u := by
          split
          · rw [Finset.mem_insert]
            exact ⟨fun hh => hh.resolve_left hi, fun hh => Or.inr hh⟩
          · exact Iff.rfl
        rw [hmix, hfr]
        exact inv1 u i
    · intro i p u k hp hk
      dsimp only at hp ⊢
      by_cases hi : i = id.index
      · subst hi
        obtain rfl : p = ((EntityList.refSet L.cs t e v).1, id.generation) := by
          injection hp.symm.trans hrawnew
        by_cases hu : u = t
        · subst hu
          rw [refSet_resolves L.cs u e v hk]
          rfl
        · rw [refSet_key_ne L.cs t u e v hu] at hk
          rw [refSet_slab_ne L.cs t u e v hu]
          exact inv2 id.index (e, id.generation) u k hrawold hk
      · rw [hframe i hi] at hp
        by_cases hu : u = t
        · subst hu
          obtain ⟨w, hw⟩ := Option.isSome_iff_exists.mp (inv2 i p u k hp hk)
          have hne : keyOf (EntityList.refSet L.cs u e v).1 u ≠ some k := by
            intro hnew
            rcases refSet_key_cases L.cs u e v hnew with hold | hdead
            · exact inv3 id.index i (e, id.generation) p u k
                (fun hh => hi hh.symm) hrawold hp hold hk
            · rw [hdead] at hw
              exact absurd hw (by simp)
          rw [refSet_frame L.cs u e v hw hne]
          rfl
        · rw [refSet_slab_ne L.cs t u e v hu]
          exact inv2 i p u k hp hk
    · intro i j p q u k hij hp hq hpk
      dsimp only at hp hq
      by_cases hi : i = id.index
      · subst hi
        obtain rfl : p = ((EntityList.refSet L.cs t e v).1, id.generation) := by
          injection hp.symm.trans hrawnew
        have hj : j ≠ id.index := fun hh => hij hh.symm
        rw [hframe j hj] at hq
        by_cases hu : u = t
        · subst hu
          intro hqk
          rcases refSet_key_cases L.cs u e v hpk with hold | hdead
          · exact inv3 id.index j (e, id.generation) q u k hij hrawold hq hold hqk
          · have := inv2 j q u k hq hqk
            rw [hdead] at this
            exact absurd this (by simp)
        · rw [refSet_key_ne L.cs t u e v hu] at hpk
          exact inv3 id.index j (e, id.generation) q u k hij hrawold hq hpk
      · by_cases hj : j = id.index
        · subst hj
          obtain rfl : q = ((EntityList.refSet L.cs t e v).1, id.generation) := by
            injection hq.symm.trans hrawnew
          rw [hframe i hi] at hp
          by_cases hu : u = t
          · subst hu
            intro hqk
            rcases refSet_key_cases L.cs u e v hqk with hold | hdead
            · exact inv3 i id.index p (e, id.generation) u k hi hp hrawold hpk hold
            · have := inv2 i p u k hp hpk
              rw [hdead] at this
              exact absurd this (by simp)
          · rw [refSet_key_ne L.cs t u e v hu]
            exact inv3 i id.index p (e, id.generation) u k hi hp hrawold hpk
        · rw [hframe i hi] at hp
          rw [hframe j hj] at hq
          exact inv3 i j p q u k hij hp hq hpk

end Smec

namespace Smec

theorem ELInv_removeComp {L L1 : EntityList} {id : Index} {t : CompId}
    {x : Option Nat} (inv : ELInv L)
    (hrc : L.removeComponentForEntity id t = some (x, L1)) : ELInv L1 := by
  obtain ⟨inv1, inv2, inv3⟩ := inv
  unfold EntityList.removeComponentForEntity at hrc
  split at hrc
  next =>
    obtain ⟨_, rfl⟩ : none = x ∧ L = L1 := by
      simp only [Option.some.injEq, Prod.mk.injEq] at hrc
      exact hrc
    exact ⟨inv1, inv2, inv3⟩
  next e hget =>
    split at hrc
    next => exact absurd hrc (by simp)
    next hrr =>
      obtain ⟨_, rfl⟩ : none = x ∧ L = L1 := by
        simp only [Option.some.injEq, Prod.mk.injEq] at hrc
        exact hrc
      exact ⟨inv1, inv2, inv3⟩
    next v e1 cs1 hrr =>
      simp only [Option.some.injEq, Prod.mk.injEq] at hrc
      obtain ⟨_, hL1⟩ := hrc
      subst hL1
      -- dissect refRemove: the key was live
      obtain ⟨k, hke, hkv, he1, hcs1⟩ : ∃ k, keyOf e t = some k ∧
          slabGet (L.cs.slabOf t) k = some v ∧ e1 = setKey e t none ∧
          cs1 = L.cs.setSlab t ((L.cs.slabOf t).set k none) := by
        unfold EntityList.refRemove at hrr
        split at hrr
        next => exact absurd hrr (by simp)
        next k hk =>
            cases hg : slabGet (L.cs.slabOf t) k with
            | none =>
                rw [show slabRemove (L.cs.slabOf t) k = none by
                  unfold slabRemove; rw [hg]] at hrr
                exact absurd hrr (by simp)
            | some w =>
                rw [slabRemove_eq_some hg] at hrr
                simp only [Option.some.injEq] at hrr
                obtain ⟨rfl, rfl, rfl⟩ : w = v ∧ setKey e t none = e1 ∧
                    L.cs.setSlab t ((L.cs.slabOf t).set k none) = cs1 := by
                  simpa using hrr
                exact ⟨k, hk, hg, rfl, rfl⟩
      subst he1
      subst hcs1
      have hrawold : L.entities.getRaw id.index = some (e, id.generation) :=
        getRaw_of_get_eq_some hget
      obtain ⟨hrawnew, hframe⟩ := setValue_getRaw (setKey e t none) hget
      refine ⟨?_, ?_, ?_⟩
      · intro u i
        dsimp only
        by_cases hi : i = id.index
        · subst hi
          by_cases hu : u = t
          · subst hu
            rw [if_pos rfl]
            constructor
            · intro hmem
              exact absurd (Finset.mem_erase.mp hmem).1 (by simp)
            · rintro ⟨p, hp, hkey⟩
              obtain rfl : p = (setKey e u none, id.generation) := by
                injection hp.symm.trans hrawnew
              rw [setKey_keyOf_self] at hkey
              exact absurd hkey (by simp)
          · rw [if_neg hu]
            constructor
            · intro hmem
              obtain ⟨p, hp, hkey⟩ := (inv1 u id.index).mp hmem
              obtain rfl : p = (e, id.generation) := by
                injection hp.symm.trans hrawold
              refine ⟨(setKey e t none, id.generation), hrawnew, ?_⟩
              rw [setKey_keyOf_ne _ _ _ _ hu]
              exact hkey
            · rintro ⟨p, hp, hkey⟩
              obtain rfl : p = (setKey e t none, id.generation) := by
                injection hp.symm.trans hrawnew
              rw [setKey_keyOf_ne _ _ _ _ hu] at hkey
              exact (inv1 u id.index).mpr ⟨(e, id.generation), hrawold, hkey⟩
        · have hfr := hframe i hi
          have hmix : i ∈ (if u = t then
              (L.bitsets u).erase id.index else L.bitsets u) ↔
              i ∈ L.bitsets u := by
            split
            · rw [Finset.mem_erase]
              exact ⟨fun hh => hh.2, fun hh => ⟨hi, hh⟩⟩
            · exact Iff.rfl
          rw [hmix, hfr]
          exact inv1 u i
      · intro i p u k2 hp hk2
        dsimp only at hp ⊢
        by_cases hi : i = id.index
        · subst hi
          obtain rfl : p = (setKey e t none, id.generation) := by
            injection hp.symm.trans hrawnew
          by_cases hu : u = t
          · subst hu
            rw [setKey_keyOf_self] at hk2
            exact absurd hk2 (by simp)
          · rw [setKey_keyOf_ne _ _ _ _ hu] at hk2
            rw [setSlab_slabOf_ne _ _ _ _ hu]
            exact inv2 id.index (e, id.generation) u k2 hrawold hk2
        · rw [hframe i hi] at hp
          by_cases hu : u = t
          · subst hu
            have hkne : k2 ≠ k := by
              intro hh
              subst hh
              exact inv3 id.index i (e, id.generation) p u k2
                (fun hh2 => hi hh2.symm) hrawold hp hke hk2
            rw [setSlab_slabOf_self]
            rw [slabGet_set_ne _ hkne]
            exact inv2 i p u k2 hp hk2
          · rw [setSlab_slabOf_ne _ _ _ _ hu]
            exact inv2 i p u k2 hp hk2
      · intro i j p q u k2 hij hp hq hpk
        dsimp only at hp hq
        by_cases hi : i = id.index
        · subst hi
          obtain rfl : p = (setKey e t none, id.generation) := by
            injection hp.symm.trans hrawnew
          have hj : j ≠ id.index := fun hh => hij hh.symm
          rw [hframe j hj] at hq
          by_cases hu : u = t
          · subst hu
            rw [setKey_keyOf_self] at hpk
            exact absurd hpk (by simp)
          · rw [setKey_keyOf_ne _ _ _ _ hu] at hpk
            exact inv3 id.index j (e, id.generation) q u k2 hij hrawold hq hpk
        · by_cases hj : j = id.index
          · subst hj
            obtain rfl : q = (setKey e t none, id.generation) := by
              injection hq.symm.trans hrawnew
            rw [hframe i hi] at hp
            by_cases hu : u = t
            · subst hu
              rw [setKey_keyOf_self]
              simp
            · rw [setKey_keyOf_ne _ _ _ _ hu]
              exact inv3 i id.index p (e, id.generation) u k2 hi hp hrawold hpk
          · rw [hframe i hi] at hp
            rw [hframe j hj] at hq
            exact inv3 i j p q u k2 hij hp hq hpk

theorem ELInv_applyEOp {L L1 : EntityList} {op : EOp}
    (inv : ELInv L) (h : applyEOp L op = some L1) : ELInv L1 := by
  cases op with
  | insert owned =>
      simp only [applyEOp, Option.map_eq_some'] at h
      obtain ⟨⟨id, L2⟩, hins, hL1⟩ := h
      rw [← hL1]
      exact ELInv_insert inv hins
  | remove id =>
      simp only [applyEOp, Option.map_eq_some'] at h
      obtain ⟨⟨x, L2⟩, hrem, hL1⟩ := h
      rw [← hL1]
      exact ELInv_remove inv hrem
  | refresh id =>
      obtain rfl : L.refresh id = L1 := by injection h
      exact ELInv_refresh inv id
  | addComp id t v =>
      obtain rfl : (L.addComponentForEntity id t v).2 = L1 := by injection h
      exact ELInv_addComp inv id t v
  | removeComp id t =>
      simp only [applyEOp, Option.map_eq_some'] at h
      obtain ⟨⟨x, L2⟩, hrc, hL1⟩ := h
      rw [← hL1]
      exact ELInv_removeComp inv hrc

theorem ELInv_runE {ops : List EOp} {L L1 : EntityList}
    (h : runE ops L = some L1) (inv : ELInv L) : ELInv L1 := by
  induction ops generalizing L with
  | nil =>
      obtain rfl : L = L1 := by injection h
      exact inv
  | cons op ops ih =>
      simp only [runE] at h
      split at h
      next L2 hop => exact ih h (ELInv_applyEOp inv hop)
      next => exact absurd h (by simp)

end Smec

namespace Smec

theorem rawLookup_eq_some {a : GenArena EntityRef} {i : Nat} {h : Index}
    {e : EntityRef} :
    rawLookup a i = some (h, e) ↔
      h.index = i ∧ a.getRaw i = some (e, h.generation) := by
  unfold rawLookup
  constructor
  · intro hr
    cases hg : a.getRaw i with
    | none => rw [hg] at hr; exact absurd hr (by simp)
    | some p =>
        rw [hg] at hr
        simp only [Option.map_some', Option.some.injEq, Prod.mk.injEq] at hr
        obtain ⟨hh, he⟩ := hr
        subst he
        refine ⟨by rw [← hh], ?_⟩
        rw [← hh]
  · rintro ⟨hh, hg⟩
    subst hh
    rw [hg]
    simp

theorem iterOn_isSome {L : EntityList} {s : Finset Nat}
    (hocc : ∀ i ∈ s, ∃ p, L.entities.getRaw i = some p) :
    (iterOn L s).isSome := by
  apply seqMap_isSome
  intro i hi
  rw [sortedBits, Finset.mem_sort] at hi
  obtain ⟨p, hp⟩ := hocc i hi
  simp [rawLookup, hp]

theorem iterOn_mem {L : EntityList} {s : Finset Nat} {l : List (Index × EntityRef)}
    (hit : iterOn L s = some l) {h : Index} {e : EntityRef} :
    (h, e) ∈ l ↔ h.index ∈ s ∧ L.entities.getRaw h.index = some (e, h.generation) := by
  rw [seqMap_mem_iff hit]
  constructor
  · rintro ⟨i, hi, hraw⟩
    rw [sortedBits, Finset.mem_sort] at hi
    obtain ⟨hh, hg⟩ := rawLookup_eq_some.mp hraw
    subst hh
    exact ⟨hi, hg⟩
  · rintro ⟨hi, hg⟩
    refine ⟨h.index, ?_, ?_⟩
    · rw [sortedBits, Finset.mem_sort]
      exact hi
    · exact rawLookup_eq_some.mpr ⟨rfl, hg⟩

theorem yieldedBy_some {l : List (Index × EntityRef)} {h : Index} :
    yieldedBy (some l) h = true ↔ ∃ e, (h, e) ∈ l := by
  unfold yieldedBy
  rw [List.any_eq_true]
  constructor
  · rintro ⟨p, hp, hph⟩
    refine ⟨p.2, ?_⟩
    have : p.1 = h := by simpa using hph
    rw [← this]
    exact hp
  · rintro ⟨e, he⟩
    exact ⟨(h, e), he, by simp⟩

theorem hasComp_iff {cs : CS} {t : CompId} {e : EntityRef} :
    hasComp cs t e = true ↔
      ∃ k, keyOf e t = some k ∧ (slabGet (cs.slabOf t) k).isSome := by
  unfold hasComp refGet
  cases hk : keyOf e t with
  | none => simp
  | some k =>
      simp only [Option.some.injEq]
      constructor
      · intro hs
        exact ⟨k, rfl, hs⟩
      · rintro ⟨k2, rfl, hs⟩
        exact hs

/-- The two sides of the presence-agreement claim coincide on any collection
satisfying the synchronization invariant. -/
theorem presence_agreement_of_inv {L : EntityList} (inv : ELInv L)
    (t : CompId) (h : Index) :
    (iterComp L t).isSome = true ∧ yieldedBy (iterComp L t) h = getHas L t h := by
  obtain ⟨inv1, inv2, inv3⟩ := inv
  have hocc : ∀ i ∈ L.bitsets t, ∃ p, L.entities.getRaw i = some p := by
    intro i hi
    obtain ⟨p, hp, _⟩ := (inv1 t i).mp hi
    exact ⟨p, hp⟩
  have hsome : (iterComp L t).isSome := iterOn_isSome hocc
  obtain ⟨l, hl⟩ := Option.isSome_iff_exists.mp hsome
  refine ⟨hsome, ?_⟩
  rw [hl]
  rw [Bool.eq_iff_iff]
  rw [yieldedBy_some]
  unfold getHas EntityList.get
  constructor
  · rintro ⟨e, he⟩
    obtain ⟨hbit, hraw⟩ := (iterOn_mem hl).mp he
    rw [get_eq_some_of_getRaw hraw]
    obtain ⟨p, hp, hkey⟩ := (inv1 t h.index).mp hbit
    obtain rfl : p = (e, h.generation) := by injection hp.symm.trans hraw
    obtain ⟨k, hk⟩ := Option.isSome_iff_exists.mp hkey
    rw [hasComp_iff]
    exact ⟨k, hk, inv2 h.index (e, h.generation) t k hraw hk⟩
  · intro hget
    cases hg : L.entities.get h with
    | none => rw [hg] at hget; exact absurd hget (by simp)
    | some e =>
        rw [hg] at hget
        obtain ⟨k, hk, _⟩ := hasComp_iff.mp hget
        have hraw := getRaw_of_get_eq_some hg
        have hbit : h.index ∈ L.bitsets t :=
          (inv1 t h.index).mpr ⟨(e, h.generation), hraw, by rw [hk]; rfl⟩
        exact ⟨e, (iterOn_mem hl).mpr ⟨hbit, hraw⟩⟩

/-- C1: on every collection built by legal operations from `new()`, a handle
is yielded by the single-type query `iter::<(T,)>()` exactly when `get` on
that handle returns an entity whose `has::<T>()` is true — and the query
itself never hits the desynchronization panic. -/
theorem entity_list_presence_index_agreement
    (ops : List EOp) (L : EntityList) (t : CompId) (h : Index)
    (hrun : runE ops EntityList.new = some L) :
    (iterComp L t).isSome = true ∧ yieldedBy (iterComp L t) h = getHas L t h :=
  presence_agreement_of_inv (ELInv_runE hrun ELInv_new) t h

/-- Concrete run for the presence-agreement witness. -/
def c1ops : List EOp :=
  [EOp.insert ⟨1, some 5, none, none⟩, EOp.insert ⟨2, none, some 7, none⟩,
   EOp.removeComp ⟨0, 0⟩ CompId.a]

def c1L : EntityList := (runE c1ops EntityList.new).getD EntityList.new

/-- Witness for `entity_list_presence_index_agreement` at a concrete run. -/
theorem entity_list_presence_index_agreement_witness :
    (iterComp c1L CompId.a).isSome = true ∧
    yieldedBy (iterComp c1L CompId.a) ⟨0, 0⟩ = getHas c1L CompId.a ⟨0, 0⟩ :=
  entity_list_presence_index_agreement c1ops c1L CompId.a ⟨0, 0⟩ rfl

end Smec

namespace Smec

/-- C2: on every collection built by legal operations from `new()`, the
two-type query yields exactly the handles yielded by both single-type
queries: `BitSetAnd` composition is set intersection. -/
theorem entity_list_query_conjunction
    (ops : List EOp) (L : EntityList) (t1 t2 : CompId) (h : Index)
    (hrun : runE ops EntityList.new = some L) :
    (iterPair L t1 t2).isSome = true ∧
    yieldedBy (iterPair L t1 t2) h =
      (yieldedBy (iterComp L t1) h && yieldedBy (iterComp L t2) h) := by
  have inv := ELInv_runE hrun ELInv_new
  obtain ⟨inv1, inv2, inv3⟩ := inv
  have hocc : ∀ t, ∀ i ∈ L.bitsets t, ∃ p, L.entities.getRaw i = some p := by
    intro t i hi
    obtain ⟨p, hp, _⟩ := (inv1 t i).mp hi
    exact ⟨p, hp⟩
  have hsome1 : (iterComp L t1).isSome := iterOn_isSome (hocc t1)
  have hsome2 : (iterComp L t2).isSome := iterOn_isSome (hocc t2)
  have hsomep : (iterPair L t1 t2).isSome := by
    apply iterOn_isSome
    intro i hi
    exact hocc t1 i (Finset.mem_inter.mp hi).1
  obtain ⟨l1, hl1⟩ := Option.isSome_iff_exists.mp hsome1
  obtain ⟨l2, hl2⟩ := Option.isSome_iff_exists.mp hsome2
  obtain ⟨lp, hlp⟩ := Option.isSome_iff_exists.mp hsomep
  refine ⟨hsomep, ?_⟩
  rw [hl1, hl2, hlp, Bool.eq_iff_iff, Bool.and_eq_true, yieldedBy_some,
    yieldedBy_some, yieldedBy_some]
  constructor
  · rintro ⟨e, he⟩
    obtain ⟨hbit, hraw⟩ := (iterOn_mem hlp).mp he
    obtain ⟨hb1, hb2⟩ := Finset.mem_inter.mp hbit
    exact ⟨⟨e, (iterOn_mem hl1).mpr ⟨hb1, hraw⟩⟩,
           ⟨e, (iterOn_mem hl2).mpr ⟨hb2, hraw⟩⟩⟩
  · rintro ⟨⟨e1, he1⟩, ⟨e2, he2⟩⟩
    obtain ⟨hb1, hraw1⟩ := (iterOn_mem hl1).mp he1
    obtain ⟨hb2, hraw2⟩ := (iterOn_mem hl2).mp he2
    exact ⟨e1, (iterOn_mem hlp).mpr ⟨Finset.mem_inter.mpr ⟨hb1, hb2⟩, hraw1⟩⟩

/-- Concrete run for the conjunction witness: the test scenario of
`tests/basic.rs` (eight inserts, two removals). -/
def c2ops : List EOp :=
  [EOp.insert ⟨1, some 10, none, none⟩, EOp.insert ⟨2, none, some 20, none⟩,
   EOp.insert ⟨3, some 30, some 31, none⟩, EOp.insert ⟨4, none, none, some 40⟩,
   EOp.insert ⟨5, some 50, some 51, some 52⟩, EOp.insert ⟨6, none, some 60, some 61⟩,
   EOp.insert ⟨7, some 70, some 71, none⟩, EOp.insert ⟨8, some 80, some 81, some 82⟩,
   EOp.remove ⟨4, 0⟩, EOp.remove ⟨6, 0⟩]

def c2L : EntityList := (runE c2ops EntityList.new).getD EntityList.new

/-- Witness for `entity_list_query_conjunction` at the test scenario. -/
theorem entity_list_query_conjunction_witness :
    (iterPair c2L CompId.a CompId.b).isSome = true ∧
    yieldedBy (iterPair c2L CompId.a CompId.b) ⟨2, 0⟩ =
      (yieldedBy (iterComp c2L CompId.a) ⟨2, 0⟩ &&
       yieldedBy (iterComp c2L CompId.b) ⟨2, 0⟩) :=
  entity_list_query_conjunction c2ops c2L CompId.a CompId.b ⟨2, 0⟩ rfl

end Smec

namespace Smec

theorem iterOn_not_yielded {L : EntityList} {s : Finset Nat} {h : Index}
    (hocc : ∀ i ∈ s, ∃ p, L.entities.getRaw i = some p)
    (hnot : h.index ∉ s) :
    yieldedBy (iterOn L s) h = false := by
  obtain ⟨l, hl⟩ := Option.isSome_iff_exists.mp (iterOn_isSome hocc)
  rw [hl, Bool.eq_false_iff]
  intro hyes
  obtain ⟨e, he⟩ := yieldedBy_some.mp hyes
  exact hnot ((iterOn_mem hl).mp he).1

/-- C8: removing an attachment through the mutable reference from
`get_mut`, without `refresh`, leaves the handle still yielded by the
filtered query (the bitset is stale but the query does not panic); after
`refresh` the handle is no longer yielded. -/
theorem entity_list_stale_bitset_until_refresh
    (ops : List EOp) (L L1 : EntityList) (t : CompId) (h : Index) (e : EntityRef)
    (hrun : runE ops EntityList.new = some L)
    (hget : L.get h = some e)
    (hhas : hasComp L.cs t e = true)
    (hmut : L.removeViaGetMut h t = some L1) :
    yieldedBy (iterComp L1 t) h = true
    ∧ (iterComp L1 t).isSome = true
    ∧ yieldedBy (iterComp (L1.refresh h) t) h = false
    ∧ (iterComp (L1.refresh h) t).isSome = true := by
  obtain ⟨inv1, inv2, inv3⟩ := ELInv_runE hrun ELInv_new
  obtain ⟨k, hke, hkl⟩ := hasComp_iff.mp hhas
  obtain ⟨v, hkv⟩ := Option.isSome_iff_exists.mp hkl
  have hraw : L.entities.getRaw h.index = some (e, h.generation) :=
    getRaw_of_get_eq_some hget
  -- dissect the direct mutation
  unfold EntityList.removeViaGetMut at hmut
  rw [show L.entities.get h = some e from hget] at hmut
  dsimp only at hmut
  rw [refRemove_of_live_key hke hkv] at hmut
  obtain hL1 : ({ L with
      entities := EntityList.setValue L.entities h (setKey e t none),
      cs := L.cs.setSlab t ((L.cs.slabOf t).set k none) } : EntityList) = L1 := by
    injection hmut
  subst hL1
  obtain ⟨hrawnew, hframe⟩ := setValue_getRaw (setKey e t none) hget
  have hbit : h.index ∈ L.bitsets t :=
    (inv1 t h.index).mpr ⟨(e, h.generation), hraw, by rw [hke]; rfl⟩
  -- occupancy of every set bit survives the direct mutation
  have hocc1 : ∀ u, ∀ i ∈ L.bitsets u, ∃ p,
      (EntityList.setValue L.entities h (setKey e t none)).getRaw i = some p := by
    intro u i hi
    by_cases hii : i = h.index
    · subst hii
      exact ⟨(setKey e t none, h.generation), hrawnew⟩
    · obtain ⟨p, hp, _⟩ := (inv1 u i).mp hi
      exact ⟨p, by rw [hframe i hii]; exact hp⟩
  have hsome1 : (iterComp ({ L with
      entities := EntityList.setValue L.entities h (setKey e t none),
      cs := L.cs.setSlab t ((L.cs.slabOf t).set k none) } : EntityList) t).isSome :=
    iterOn_isSome (hocc1 t)
  obtain ⟨l1, hl1⟩ := Option.isSome_iff_exists.mp hsome1
  refine ⟨?_, hsome1, ?_, ?_⟩
  · rw [hl1, yieldedBy_some]
    exact ⟨setKey e t none, (iterOn_mem hl1).mpr ⟨hbit, hrawnew⟩⟩
  · unfold EntityList.refresh
    rw [show (EntityList.setValue L.entities h (setKey e t none)).get h =
        some (setKey e t none) from get_eq_some_of_getRaw hrawnew]
    dsimp only
    refine iterOn_not_yielded ?_ ?_
    · intro i hi
      dsimp only at hi
      rw [setKey_keyOf_self, if_neg (by simp)] at hi
      exact hocc1 t i (Finset.mem_erase.mp hi).2
    · dsimp only
      rw [setKey_keyOf_self, if_neg (by simp)]
      simp
  · unfold EntityList.refresh
    rw [show (EntityList.setValue L.entities h (setKey e t none)).get h =
        some (setKey e t none) from get_eq_some_of_getRaw hrawnew]
    dsimp only
    refine iterOn_isSome ?_
    intro i hi
    dsimp only at hi
    rw [setKey_keyOf_self, if_neg (by simp)] at hi
    exact hocc1 t i (Finset.mem_erase.mp hi).2

/-- Concrete scenario for the stale-bitset witness. -/
def c8ops : List EOp := [EOp.insert ⟨1, some 5, some 6, none⟩]

def c8L : EntityList := (runE c8ops EntityList.new).getD EntityList.new

def c8e : EntityRef := (c8L.get ⟨0, 0⟩).getD ⟨0, none, none, none⟩

def c8L1 : EntityList := (c8L.removeViaGetMut ⟨0, 0⟩ CompId.b).getD c8L

/-- Witness for `entity_list_stale_bitset_until_refresh` at the concrete
scenario of the spec: remove attachment `b` through `get_mut`. -/
theorem entity_list_stale_bitset_until_refresh_witness :
    yieldedBy (iterComp c8L1 CompId.b) ⟨0, 0⟩ = true
    ∧ (iterComp c8L1 CompId.b).isSome = true
    ∧ yieldedBy (iterComp (c8L1.refresh ⟨0, 0⟩) CompId.b) ⟨0, 0⟩ = false
    ∧ (iterComp (c8L1.refresh ⟨0, 0⟩) CompId.b).isSome = true :=
  entity_list_stale_bitset_until_refresh c8ops c8L c8L1 CompId.b ⟨0, 0⟩ c8e
    rfl rfl rfl rfl

end Smec

namespace Smec

/-- Concrete states for the allocator-reuse witness. -/
def c7a : GenArena Nat :=
  (((GenArena.new : GenArena Nat).push 7).getD (GenArena.withCapacity 0, ⟨0, 0⟩)).1

def c7a1 : GenArena Nat :=
  ((c7a.remove ⟨0, 0⟩).getD (0, GenArena.withCapacity 0)).2

/-- Witness for `genarena_allocator_reuse` at a concrete arena. -/
theorem genarena_allocator_reuse_witness :
    (c7a1.push 9).map (fun p => (p.2, p.1.get p.2)) =
      some (⟨(0 : Nat), (0 : Nat) + 1⟩, some 9) :=
  genarena_allocator_reuse c7a c7a1 ⟨0, 0⟩ 7 9 (by decide)

end Smec
